import Mathlib

/-!
Shallow embedding of the PNG codec in src/png.h (flux2.c repository):
a dependency-free PNG encoder (store-mode DEFLATE) and decoder (full
zlib/DEFLATE inflate, chunk framer, row unfiltering).

Bytes are modelled as Nat (values < 256 on real inputs); buffers as
List Nat. C loops become structural or fuel-bounded recursions; the two
inflate loops get a generous fuel seeded from the input length, matching
the C loops which consume at least one bit per iteration. Machine
arithmetic that can wrap is modelled with explicit % 2 ^ w.
-/

namespace Png

/-- Image structure: width, height, channels, row-major channel-interleaved data. -/
structure png_image where
  width : Nat
  height : Nat
  channels : Nat
  data : List Nat
  deriving Repr, DecidableEq

/-- png_create: allocate an image with zeroed pixel data of width*height*channels bytes. -/
def png_create (width height channels : Nat) : png_image :=
  ⟨width, height, channels, List.replicate (width * height * channels) 0⟩

/-- png_clone: NULL in gives NULL out; otherwise png_create followed by memcpy of
width*height*channels bytes from the source buffer (out-of-bounds reads modelled as 0). -/
def png_clone (img : Option png_image) : Option png_image :=
  match img with
  | none => none
  | some i =>
    some ⟨i.width, i.height, i.channels,
      (List.range (i.width * i.height * i.channels)).map (fun j => i.data.getD j 0)⟩

/-- png_free: frees the data buffer and the struct when the argument is non-NULL;
modelled as the number of free() calls performed. -/
def png_free (img : Option png_image) : Nat :=
  match img with
  | none => 0
  | some _ => 2

/-- One entry of the lazily built CRC-32 table: 8 rounds of the reflected
polynomial 0xEDB88320 step. -/
def png_crc_table_entry (n : Nat) : Nat :=
  (List.range 8).foldl
    (fun c _ => if c % 2 = 1 then 0xedb88320 ^^^ (c >>> 1) else c >>> 1) n

/-- png_update_crc: running CRC update over a byte buffer. -/
def png_update_crc (crc : Nat) (buf : List Nat) : Nat :=
  buf.foldl (fun c b => png_crc_table_entry ((c ^^^ b) % 256) ^^^ (c >>> 8)) crc

/-- png_crc: CRC-32 with pre/post conditioning 0xFFFFFFFF. -/
def png_crc (buf : List Nat) : Nat :=
  png_update_crc 0xffffffff buf ^^^ 0xffffffff

/-- png_adler32: a = 1 + sum of bytes, b = sum of running a, both mod 65521;
result (b << 16) | a. -/
def png_adler32 (data : List Nat) : Nat :=
  let p := data.foldl
    (fun (p : Nat × Nat) x => ((p.1 + x) % 65521, (p.2 + (p.1 + x) % 65521) % 65521))
    (1, 0)
  (p.2 <<< 16) ||| p.1

/-- Bitwise NOT of a 64-bit size_t value. -/
def c_not64 (x : Nat) : Nat := 2 ^ 64 - 1 - x

/-- The store-mode DEFLATE block loop: while bytes remain, emit a block header
byte (BFINAL in bit 0, BTYPE=00), LEN and NLEN little-endian, then the bytes; at
most 65535 bytes per block. Every iteration consumes at least one source byte,
so the structural fuel png_deflate_blocks seeds is never exhausted. -/
def png_deflate_blocks_go (src : List Nat) (fuel : Nat) : List Nat :=
  if src.length = 0 then []
  else
    match fuel with
    | 0 => []
    | f + 1 =>
      let block_len := if src.length > 65535 then 65535 else src.length
      let is_final : Nat := if src.length ≤ 65535 then 1 else 0
      [is_final, block_len % 256, block_len / 256 % 256,
       c_not64 block_len % 256, c_not64 block_len / 256 % 256]
        ++ src.take block_len ++ png_deflate_blocks_go (src.drop block_len) f

/-- The stored-block stream for a byte buffer. -/
def png_deflate_blocks (src : List Nat) : List Nat :=
  png_deflate_blocks_go src src.length

/-- png_deflate_store: zlib header 0x78 0x01, stored blocks, big-endian Adler-32. -/
def png_deflate_store (data : List Nat) : List Nat :=
  let checksum := png_adler32 data
  [0x78, 0x01] ++ png_deflate_blocks data
    ++ [checksum >>> 24 % 256, checksum >>> 16 % 256, checksum >>> 8 % 256, checksum % 256]

/-- Big-endian 4-byte encoding, as written by png_write_chunk and the IHDR writer. -/
def png_be32_bytes (x : Nat) : List Nat :=
  [x >>> 24 % 256, x >>> 16 % 256, x >>> 8 % 256, x % 256]

/-- png_write_chunk: length (BE32), 4-byte type, payload, CRC-32 over type+payload (BE32). -/
def png_write_chunk (ctype : List Nat) (cdata : List Nat) : List Nat :=
  png_be32_bytes cdata.length ++ ctype ++ cdata ++ png_be32_bytes (png_crc (ctype ++ cdata))

/-- The 8-byte PNG signature. -/
def png_signature : List Nat := [0x89, 0x50, 0x4e, 0x47, 0x0d, 0x0a, 0x1a, 0x0a]

def png_type_IHDR : List Nat := [73, 72, 68, 82]
def png_type_IDAT : List Nat := [73, 68, 65, 84]
def png_type_IEND : List Nat := [73, 69, 78, 68]
def png_type_tEXt : List Nat := [116, 69, 88, 116]

/-- Raw pre-filtered image rows: every row is a 0 (filter None) byte followed by
width*channels pixel bytes taken in order from the image buffer. -/
def png_raw_rows (data : List Nat) (h rowlen : Nat) : List Nat :=
  match h with
  | 0 => []
  | hh + 1 => (0 :: data.take rowlen) ++ png_raw_rows (data.drop rowlen) hh rowlen

/-- The 13-byte IHDR payload: BE32 width, BE32 height, bit depth 8, color type
from channels (4 to 6, 3 to 2, 2 to 4, else 0), compression 0, filter 0, interlace 0. -/
def png_ihdr_payload (img : png_image) : List Nat :=
  png_be32_bytes img.width ++ png_be32_bytes img.height
    ++ [8,
        if img.channels = 4 then 6 else if img.channels = 3 then 2
        else if img.channels = 2 then 4 else 0,
        0, 0, 0]

/-- png_save_internal: the byte stream written to the file — signature, IHDR,
optional tEXt (keyword, NUL, text), one IDAT holding the store-mode zlib stream
of the filtered rows, and IEND. -/
def png_save_internal (img : png_image) (keyword text : Option (List Nat)) : List Nat :=
  png_signature
    ++ png_write_chunk png_type_IHDR (png_ihdr_payload img)
    ++ (match keyword, text with
        | some k, some t => png_write_chunk png_type_tEXt (k ++ [0] ++ t)
        | _, _ => [])
    ++ png_write_chunk png_type_IDAT
        (png_deflate_store (png_raw_rows img.data img.height (img.width * img.channels)))
    ++ png_write_chunk png_type_IEND []

/-- png_save: NULL image or NULL path give return code -1 and no file content;
otherwise 0 together with the bytes png_save_internal writes. -/
def png_save (img : Option png_image) (path : Option (List Nat)) : Int × Option (List Nat) :=
  match img, path with
  | some i, some _ => (0, some (png_save_internal i none none))
  | _, _ => (-1, none)

/-- png_save_with_text: like png_save but passing keyword and text through. -/
def png_save_with_text (img : Option png_image) (path : Option (List Nat))
    (keyword text : Option (List Nat)) : Int × Option (List Nat) :=
  match img, path with
  | some i, some _ => (0, some (png_save_internal i keyword text))
  | _, _ => (-1, none)

/-! ## Inflate: bit reader -/

/-- Bit reader state: input bytes, byte cursor, shift register, valid bit count. -/
structure png_bitstream where
  data : List Nat
  bytepos : Nat
  bitbuf : Nat
  bitcount : Nat
  deriving Repr, DecidableEq

/-- The refill loop of png_bitstream_fill: while fewer than n bits are buffered
and input remains, pack the next byte above the buffered bits. Each iteration
adds 8 bits, so fuel n (the seed used by png_bitstream_fill) always outlasts
the loop condition. -/
def png_fill_go (bs : png_bitstream) (n fuel : Nat) : png_bitstream :=
  match fuel with
  | 0 => bs
  | f + 1 =>
    if bs.bitcount < n ∧ bs.bytepos < bs.data.length then
      png_fill_go
        { bs with
          bitbuf := bs.bitbuf ||| (bs.data.getD bs.bytepos 0 <<< bs.bitcount),
          bitcount := bs.bitcount + 8,
          bytepos := bs.bytepos + 1 } n f
    else bs

/-- png_bitstream_fill: refill the register one byte at a time (LSB-first packing)
until at least n bits are buffered or the input runs out. -/
def png_bitstream_fill (bs : png_bitstream) (n : Nat) : png_bitstream :=
  png_fill_go bs n n

/-- png_bitstream_get: consume n bits (low bits of the register); fails on underrun. -/
def png_bitstream_get (bs : png_bitstream) (n : Nat) : Option (Nat × png_bitstream) :=
  if n = 0 then some (0, bs)
  else
    let bs1 := png_bitstream_fill bs n
    if bs1.bitcount ≥ n then
      some (bs1.bitbuf &&& ((1 <<< n) - 1),
        { bs1 with bitbuf := bs1.bitbuf >>> n, bitcount := bs1.bitcount - n })
    else none

/-- png_bitstream_align: discard bits until byte-aligned. -/
def png_bitstream_align (bs : png_bitstream) : Option png_bitstream :=
  let skip := bs.bitcount % 8
  if skip = 0 then some bs
  else
    match png_bitstream_get bs skip with
    | none => none
    | some (_, bs1) => some bs1

/-- Byte-at-a-time fallback of png_bitstream_read_bytes when not byte-aligned. -/
def png_read_bytes_slow (bs : png_bitstream) (len : Nat) : Option (List Nat × png_bitstream) :=
  match len with
  | 0 => some ([], bs)
  | l + 1 =>
    match png_bitstream_get bs 8 with
    | none => none
    | some (v, bs1) =>
      match png_read_bytes_slow bs1 l with
      | none => none
      | some (rest, bs2) => some (v :: rest, bs2)

/-- png_bitstream_read_bytes: byte-aligned bulk copy when the register is empty,
else byte-by-byte; fails on short read. -/
def png_bitstream_read_bytes (bs : png_bitstream) (len : Nat) :
    Option (List Nat × png_bitstream) :=
  if bs.bitcount = 0 then
    if bs.bytepos + len > bs.data.length then none
    else some ((bs.data.drop bs.bytepos).take len, { bs with bytepos := bs.bytepos + len })
  else png_read_bytes_slow bs len

/-! ## Inflate: Huffman tables -/

/-- Canonical Huffman table: count of codes per length 0..15, symbols in canonical order. -/
structure png_huffman where
  count : List Nat
  symbol : List Nat
  deriving Repr, DecidableEq

/-- First loop of png_huffman_build: reject a code length above 15, tally count[len]. -/
def png_count_lengths (lengths : List Nat) (cnt : List Nat) : Option (List Nat) :=
  match lengths with
  | [] => some cnt
  | l :: rest =>
    if l > 15 then none
    else png_count_lengths rest (cnt.set l (cnt.getD l 0 + 1))

/-- Kraft loop of png_huffman_build: left starts at 1 and for each length 1..15
doubles and subtracts count[len]; a negative value is fatal. The structural rem
argument counts the remaining lengths (15 at entry). -/
def png_kraft_go (cnt : List Nat) (left : Int) (len rem : Nat) : Option Int :=
  match rem with
  | 0 => some left
  | r + 1 =>
    let left1 := left * 2 - (cnt.getD len 0 : Int)
    if left1 < 0 then none else png_kraft_go cnt left1 (len + 1) r

/-- Offsets loop of png_huffman_build: offs[1] = 0, offs[len+1] = offs[len] + count[len]
for len = 1..14 (rem counts the remaining iterations, 14 at entry). -/
def png_offs_go (cnt : List Nat) (offs : List Nat) (len rem : Nat) : List Nat :=
  match rem with
  | 0 => offs
  | r + 1 =>
    png_offs_go cnt (offs.set (len + 1) (offs.getD len 0 + cnt.getD len 0)) (len + 1) r

/-- Placement loop of png_huffman_build: walk symbols in order; each nonzero
length places the symbol at its length's next slot. -/
def png_place_go (ls : List Nat) (i : Nat) (offs sym : List Nat) : List Nat × List Nat :=
  match ls with
  | [] => (offs, sym)
  | l :: rest =>
    if l ≠ 0 then
      png_place_go rest (i + 1) (offs.set l (offs.getD l 0 + 1))
        (sym.set (offs.getD l 0) i)
    else png_place_go rest (i + 1) offs sym

/-- png_huffman_build: canonical table construction from a code-length array. -/
def png_huffman_build (lengths : List Nat) : Option png_huffman :=
  match png_count_lengths lengths (List.replicate 16 0) with
  | none => none
  | some cnt =>
    match png_kraft_go cnt 1 1 15 with
    | none => none
    | some _ =>
      let offs := png_offs_go cnt (List.replicate 16 0) 1 14
      let placed := png_place_go lengths 0 offs (List.replicate 288 0)
      some ⟨cnt, placed.2⟩

/-- The running Kraft counter as worded in the specification: left starts at 1
and, for each length 1..15 in turn, doubles and subtracts the number of codes
of that length. -/
def png_kraft_left_spec (lengths : List Nat) : Nat → Int
  | 0 => 1
  | l + 1 => 2 * png_kraft_left_spec lengths l - (lengths.count (l + 1) : Int)

/-- Start offset of a code length's group in the canonical symbol array: the
number of symbols whose code length is nonzero and smaller. -/
def png_offs_start (lengths : List Nat) : Nat → Nat
  | 0 => 0
  | l + 1 => png_offs_start lengths l + (if 1 ≤ l then lengths.count l else 0)

/-- png_huffman_decode loop: read bits MSB-first, tracking code, first and index
per length 1..15 (rem counts the remaining lengths, 15 at entry); failure to
resolve by length 15 is fatal. -/
def png_huffman_decode_go (bs : png_bitstream) (h : png_huffman)
    (code first index : Nat) (len rem : Nat) : Option (Nat × png_bitstream) :=
  match rem with
  | 0 => none
  | r + 1 =>
    match png_bitstream_get bs 1 with
    | none => none
    | some (bit, bs1) =>
      let code1 := code ||| bit
      let count := h.count.getD len 0
      if code1 < first + count then
        some (h.symbol.getD (index + (code1 - first)) 0, bs1)
      else
        png_huffman_decode_go bs1 h (code1 <<< 1) ((first + count) <<< 1)
          (index + count) (len + 1) r

/-- png_huffman_decode: decode one symbol. -/
def png_huffman_decode (bs : png_bitstream) (h : png_huffman) :
    Option (Nat × png_bitstream) :=
  png_huffman_decode_go bs h 0 0 0 1 15

/-- Fixed literal/length code lengths: 0-143 get 8, 144-255 get 9, 256-279 get 7,
280-287 get 8. -/
def png_fixed_litlen_lengths : List Nat :=
  List.replicate 144 8 ++ List.replicate 112 9 ++ List.replicate 24 7 ++ List.replicate 8 8

/-- Fixed distance code lengths: all 32 symbols get 5. -/
def png_fixed_dist_lengths : List Nat := List.replicate 32 5

/-- png_build_fixed_huffman: build both fixed tables. -/
def png_build_fixed_huffman : Option (png_huffman × png_huffman) :=
  match png_huffman_build png_fixed_litlen_lengths with
  | none => none
  | some litlen =>
    match png_huffman_build png_fixed_dist_lengths with
    | none => none
    | some dist => some (litlen, dist)

/-- The fixed permutation of code-length code positions. -/
def png_code_length_order : List Nat :=
  [16, 17, 18, 0, 8, 7, 9, 6, 10] ++ [5, 11, 4, 12, 3, 13, 2, 14, 1, 15]

/-- Read ncode 3-bit code lengths into the positions given by the fixed
permutation; structurally recursive on the remaining count. -/
def png_read_code_lengths (bs : png_bitstream) (i : Nat) (arr : List Nat) (rem : Nat) :
    Option (List Nat × png_bitstream) :=
  match rem with
  | 0 => some (arr, bs)
  | r + 1 =>
    match png_bitstream_get bs 3 with
    | none => none
    | some (v, bs1) =>
      png_read_code_lengths bs1 (i + 1) (arr.set (png_code_length_order.getD i 0) v) r

/-- The code-length symbol loop of png_build_dynamic_huffman: symbols 0-15 are
literal lengths, 16 repeats the previous length 3+2bits times (fatal with no
previous), 17 emits 3+3bits zeros, 18 emits 11+7bits zeros. -/
def png_dyn_lens_go (bs : png_bitstream) (code_huff : png_huffman) (total : Nat)
    (acc : List Nat) (prev fuel : Nat) : Option (List Nat × png_bitstream) :=
  if acc.length ≥ total then some (acc, bs)
  else
    match fuel with
    | 0 => none
    | f + 1 =>
      match png_huffman_decode bs code_huff with
      | none => none
      | some (sym, bs1) =>
        if sym ≤ 15 then png_dyn_lens_go bs1 code_huff total (acc ++ [sym]) sym f
        else if sym = 16 then
          if acc.length = 0 then none
          else
            match png_bitstream_get bs1 2 with
            | none => none
            | some (r, bs2) =>
              if acc.length + (r + 3) > total then none
              else
                png_dyn_lens_go bs2 code_huff total (acc ++ List.replicate (r + 3) prev)
                  prev f
        else if sym = 17 then
          match png_bitstream_get bs1 3 with
          | none => none
          | some (r, bs2) =>
            if acc.length + (r + 3) > total then none
            else png_dyn_lens_go bs2 code_huff total (acc ++ List.replicate (r + 3) 0) 0 f
        else if sym = 18 then
          match png_bitstream_get bs1 7 with
          | none => none
          | some (r, bs2) =>
            if acc.length + (r + 11) > total then none
            else png_dyn_lens_go bs2 code_huff total (acc ++ List.replicate (r + 11) 0) 0 f
        else none

/-- png_build_dynamic_huffman: read HLIT/HDIST/HCLEN, the permuted 3-bit code
lengths, decode the combined length array, and build both tables. -/
def png_build_dynamic_huffman (bs : png_bitstream) :
    Option (png_huffman × png_huffman × png_bitstream) :=
  match png_bitstream_get bs 5 with
  | none => none
  | some (hlit, bs1) =>
    match png_bitstream_get bs1 5 with
    | none => none
    | some (hdist, bs2) =>
      match png_bitstream_get bs2 4 with
      | none => none
      | some (hclen, bs3) =>
        let nlen := hlit + 257
        let ndist := hdist + 1
        let ncode := hclen + 4
        if nlen > 288 ∨ ndist > 32 then none
        else
          match png_read_code_lengths bs3 0 (List.replicate 19 0) ncode with
          | none => none
          | some (code_lengths, bs4) =>
            match png_huffman_build code_lengths with
            | none => none
            | some code_huff =>
              match png_dyn_lens_go bs4 code_huff (nlen + ndist) [] 0 (nlen + ndist) with
              | none => none
              | some (lengths, bs5) =>
                match png_huffman_build (lengths.take nlen) with
                | none => none
                | some litlen =>
                  match png_huffman_build (lengths.drop nlen) with
                  | none => none
                  | some dist => some (litlen, dist, bs5)

/-! ## Inflate: LZ77 and the block loop -/

/-- Length symbol base values (symbols 257..285). -/
def png_len_base : List Nat :=
  [3, 4, 5, 6, 7, 8, 9, 10, 11, 13, 15, 17, 19, 23]
    ++ [27, 31, 35, 43, 51, 59, 67, 83, 99, 115, 131, 163, 195, 227, 258]

/-- Length symbol extra-bit counts. -/
def png_len_extra : List Nat :=
  [0, 0, 0, 0, 0, 0, 0, 0, 1, 1, 1, 1, 2, 2]
    ++ [2, 2, 3, 3, 3, 3, 4, 4, 4, 4, 5, 5, 5, 5, 0]

/-- Distance symbol base values (symbols 0..29). -/
def png_dist_base : List Nat :=
  [1, 2, 3, 4, 5, 7, 9, 13, 17, 25, 33, 49, 65, 97]
    ++ [129, 193, 257, 385, 513, 769, 1025, 1537, 2049, 3073, 4097, 6145, 8193, 12289,
        16385, 24577]

/-- Distance symbol extra-bit counts. -/
def png_dist_extra : List Nat :=
  [0, 0, 0, 0, 1, 1, 2, 2, 3, 3, 4, 4, 5, 5]
    ++ [6, 6, 7, 7, 8, 8, 9, 9, 10, 10, 11, 11, 12, 12, 13, 13]

/-- The byte-at-a-time back-reference copy: length times append
out[out_pos - distance] at out_pos; overlapping copies re-read freshly
written bytes. -/
def png_backref_copy (out : List Nat) (distance length : Nat) : List Nat :=
  match length with
  | 0 => out
  | l + 1 => png_backref_copy (out ++ [out.getD (out.length - distance) 0]) distance l

/-- The guarded back-reference step of the inflate symbol loop: fail unless
1 <= distance <= bytes written and bytes written + length <= expected length,
then do the byte-at-a-time copy. -/
def png_lz77_step (out : List Nat) (distance length expected_len : Nat) :
    Option (List Nat) :=
  if distance = 0 ∨ out.length < distance then none
  else if out.length + length > expected_len then none
  else some (png_backref_copy out distance length)

/-- The symbol loop shared by fixed and dynamic blocks: literals below 256 are
emitted, 256 ends the block, 257-285 decode a length/distance pair, anything
above is fatal. -/
def png_inflate_symbols (bs : png_bitstream) (litlen dist : png_huffman)
    (out : List Nat) (expected : Nat) (fuel : Nat) :
    Option (List Nat × png_bitstream) :=
  match fuel with
  | 0 => none
  | fuel + 1 =>
    match png_huffman_decode bs litlen with
    | none => none
    | some (sym, bs1) =>
      if sym < 256 then
        if out.length ≥ expected then none
        else png_inflate_symbols bs1 litlen dist (out ++ [sym]) expected fuel
      else if sym = 256 then some (out, bs1)
      else if sym ≤ 285 then
        let len_sym := sym - 257
        let base := png_len_base.getD len_sym 0
        match
          (if png_len_extra.getD len_sym 0 ≠ 0 then
            png_bitstream_get bs1 (png_len_extra.getD len_sym 0)
          else some (0, bs1)) with
        | none => none
        | some (extra, bs2) =>
          let length := base + extra
          match png_huffman_decode bs2 dist with
          | none => none
          | some (dist_sym, bs3) =>
            if dist_sym ≥ 30 then none
            else
              match
                (if png_dist_extra.getD dist_sym 0 ≠ 0 then
                  png_bitstream_get bs3 (png_dist_extra.getD dist_sym 0)
                else some (0, bs3)) with
              | none => none
              | some (dextra, bs4) =>
                let distance := png_dist_base.getD dist_sym 0 + dextra
                match png_lz77_step out distance length expected with
                | none => none
                | some out1 => png_inflate_symbols bs4 litlen dist out1 expected fuel
      else none

/-- The DEFLATE block loop: read BFINAL and BTYPE; stored blocks align, check
LEN against NLEN and bulk-copy; fixed and dynamic blocks run the symbol loop;
BTYPE=3 is fatal. Returns the output after the final block. -/
def png_inflate_blocks (bs : png_bitstream) (out : List Nat) (expected fuel : Nat) :
    Option (List Nat) :=
  match fuel with
  | 0 => none
  | fuel + 1 =>
    match png_bitstream_get bs 1 with
    | none => none
    | some (bfinal, bs1) =>
      match png_bitstream_get bs1 2 with
      | none => none
      | some (btype, bs2) =>
        if btype = 0 then
          match png_bitstream_align bs2 with
          | none => none
          | some bs3 =>
            match png_bitstream_get bs3 16 with
            | none => none
            | some (stored_len, bs4) =>
              match png_bitstream_get bs4 16 with
              | none => none
              | some (stored_nlen, bs5) =>
                if stored_len ^^^ 0xffff ≠ stored_nlen then none
                else if out.length + stored_len > expected then none
                else
                  match png_bitstream_read_bytes bs5 stored_len with
                  | none => none
                  | some (bytes, bs6) =>
                    if bfinal ≠ 0 then some (out ++ bytes)
                    else png_inflate_blocks bs6 (out ++ bytes) expected fuel
        else if btype = 1 ∨ btype = 2 then
          match
            (if btype = 1 then
              match png_build_fixed_huffman with
              | none => none
              | some (l, d) => some (l, d, bs2)
            else png_build_dynamic_huffman bs2) with
          | none => none
          | some (litlen, dist, bs3) =>
            match png_inflate_symbols bs3 litlen dist out expected fuel with
            | none => none
            | some (out1, bs4) =>
              if bfinal ≠ 0 then some out1
              else png_inflate_blocks bs4 out1 expected fuel
        else none

/-- png_inflate_zlib: validate the zlib header (CMF low nibble 8, mod-31 parity,
optional FDICT skip), run the block loop, then require the output length to
equal the expectation and the trailing big-endian Adler-32 to match. -/
def png_inflate_zlib (data : List Nat) (expected_len : Nat) : Option (List Nat) :=
  if data.length < 6 then none
  else
    let cmf := data.getD 0 0
    let flg := data.getD 1 0
    if cmf &&& 15 ≠ 8 then none
    else if ((cmf <<< 8) + flg) % 31 ≠ 0 then none
    else if flg &&& 32 ≠ 0 ∧ data.length < 10 then none
    else
      let pos := if flg &&& 32 ≠ 0 then 6 else 2
      if data.length < pos + 4 then none
      else
        let deflate_len := data.length - pos - 4
        let bs : png_bitstream := ⟨(data.drop pos).take deflate_len, 0, 0, 0⟩
        match png_inflate_blocks bs [] expected_len (8 * data.length + 64) with
        | none => none
        | some out =>
          if out.length ≠ expected_len then none
          else
            let expected_adler :=
              (data.getD (data.length - 4) 0 <<< 24) |||
              (data.getD (data.length - 3) 0 <<< 16) |||
              (data.getD (data.length - 2) 0 <<< 8) |||
              data.getD (data.length - 1) 0
            if png_adler32 out ≠ expected_adler then none else some out

/-! ## Row unfiltering -/

/-- png_abs on C int. -/
def png_abs (x : Int) : Int := if x < 0 then -x else x

/-- Sub filter loop: from i = bpp, add the already-reconstructed left neighbor. -/
def png_unfilter_sub_go (bpp : Nat) (r : List Nat) (i steps : Nat) : List Nat :=
  match steps with
  | 0 => r
  | s + 1 =>
    png_unfilter_sub_go bpp (r.set i ((r.getD i 0 + r.getD (i - bpp) 0) % 256)) (i + 1) s

/-- Up filter loop: add the previous row byte at the same index. -/
def png_unfilter_up_go (prev : List Nat) (r : List Nat) (i steps : Nat) : List Nat :=
  match steps with
  | 0 => r
  | s + 1 =>
    png_unfilter_up_go prev (r.set i ((r.getD i 0 + prev.getD i 0) % 256)) (i + 1) s

/-- Average filter loop: add floor((a + b) / 2) with a the reconstructed left
neighbor (0 when absent) and b the previous-row byte (0 when no previous row). -/
def png_unfilter_avg_go (prev : List Nat) (bpp : Nat) (r : List Nat) (i steps : Nat) :
    List Nat :=
  match steps with
  | 0 => r
  | s + 1 =>
    png_unfilter_avg_go prev bpp
      (r.set i
        ((r.getD i 0 +
          ((if i ≥ bpp then r.getD (i - bpp) 0 else 0) +
           (if prev = [] then 0 else prev.getD i 0)) / 2) % 256))
      (i + 1) s

/-- The Paeth predictor exactly as computed in the filter 4 loop body: p, pa,
pb, pc as C ints via png_abs, then the a / b / c selection in that order. -/
def png_paeth_pr (a b c : Nat) : Nat :=
  let p : Int := (a : Int) + (b : Int) - (c : Int)
  let pa := png_abs (p - (a : Int))
  let pb := png_abs (p - (b : Int))
  let pc := png_abs (p - (c : Int))
  if pa ≤ pb ∧ pa ≤ pc then a else if pb ≤ pc then b else c

/-- One Paeth reconstruction step at index i, exactly as in the filter 4 loop body. -/
def png_paeth_set (prev : List Nat) (bpp : Nat) (r : List Nat) (i : Nat) : List Nat :=
  let a : Nat := if i ≥ bpp then r.getD (i - bpp) 0 else 0
  let b : Nat := if prev = [] then 0 else prev.getD i 0
  let c : Nat := if prev ≠ [] ∧ i ≥ bpp then prev.getD (i - bpp) 0 else 0
  r.set i ((r.getD i 0 + png_paeth_pr a b c) % 256)

/-- Paeth filter loop: add the Paeth predictor of the left, above and upper-left
reconstructed neighbors (0 when absent), byte additions wrapping mod 256. -/
def png_unfilter_paeth_go (prev : List Nat) (bpp : Nat) (r : List Nat) (i steps : Nat) :
    List Nat :=
  match steps with
  | 0 => r
  | s + 1 =>
    png_unfilter_paeth_go prev bpp (png_paeth_set prev bpp r i) (i + 1) s

/-- png_unfilter_row: reverse one row's filter in place; bpp equals channels.
Filters 0-4 as in the PNG spec; any other filter byte falls through the switch
and leaves the row unchanged. -/
def png_unfilter_row (row prev : List Nat) (filter width channels : Nat) : List Nat :=
  if filter = 0 then row
  else if filter = 1 then
    png_unfilter_sub_go channels row channels (width * channels - channels)
  else if filter = 2 then
    (if prev = [] then row else png_unfilter_up_go prev row 0 (width * channels))
  else if filter = 3 then png_unfilter_avg_go prev channels row 0 (width * channels)
  else if filter = 4 then png_unfilter_paeth_go prev channels row 0 (width * channels)
  else row

/-- PaethPredictor as worded in the specification: compute p = a + b - c as
signed integers, pa = |p-a|, pb = |p-b|, pc = |p-c|; return a if pa ≤ pb and
pa ≤ pc, else b if pb ≤ pc, else c (ties resolved in the order a, b, c). -/
def paeth_predictor_spec (a b c : Nat) : Nat :=
  let p : Int := (a : Int) + (b : Int) - (c : Int)
  let pa := |p - (a : Int)|
  let pb := |p - (b : Int)|
  let pc := |p - (c : Int)|
  if pa ≤ pb ∧ pa ≤ pc then a else if pb ≤ pc then b else c

/-! ## PNG reading -/

/-- png_read_be32_mem: 4-byte big-endian integer at the start of a byte suffix. -/
def png_read_be32_mem (p : List Nat) : Nat :=
  (p.getD 0 0 <<< 24) ||| (p.getD 1 0 <<< 16) ||| (p.getD 2 0 <<< 8) ||| p.getD 3 0

/-- Chunk-iteration state of png_load_mem: width, height, color type seen so far,
and the IDAT accumulator (none before the first IDAT chunk). -/
structure png_parse_state where
  width : Nat
  height : Nat
  colorType : Nat
  idat : Option (List Nat)
  deriving Repr, DecidableEq

/-- The chunk loop of png_load_mem over the bytes after the signature: read a
BE32 length and 4-byte type, stop on overrun or IEND or a short IHDR, record
IHDR fields, append IDAT payloads, skip anything else. The CRC bytes are
skipped without being read. -/
def png_parse_go (rest : List Nat) (st : png_parse_state) (fuel : Nat) :
    png_parse_state :=
  if rest.length < 8 then st
  else
    match fuel with
    | 0 => st
    | f + 1 =>
      let chunk_len := png_read_be32_mem rest
      let ctype := (rest.drop 4).take 4
      let body := rest.drop 8
      if body.length < chunk_len + 4 then st
      else if ctype = png_type_IHDR then
        if chunk_len < 13 then st
        else
          png_parse_go (body.drop (chunk_len + 4))
            { st with
              width := png_read_be32_mem body,
              height := png_read_be32_mem (body.drop 4),
              colorType := body.getD 9 0 } f
      else if ctype = png_type_IDAT then
        png_parse_go (body.drop (chunk_len + 4))
          { st with idat := some (st.idat.getD [] ++ body.take chunk_len) } f
      else if ctype = png_type_IEND then st
      else png_parse_go (body.drop (chunk_len + 4)) st f

/-- The chunk loop, seeded with fuel that each at-least-12-byte chunk iteration
cannot exhaust. -/
def png_parse_loop (rest : List Nat) (st : png_parse_state) : png_parse_state :=
  png_parse_go rest st rest.length

/-- Two byte streams that decompose into the same well-formed chunks and differ
only in each chunk's 4 CRC bytes (with a common remainder once the chunks stop). -/
inductive png_crc_equiv : List Nat → List Nat → Prop
  | refl (r : List Nat) : png_crc_equiv r r
  | chunk (L : Nat) (T D c1 c2 t1 t2 : List Nat) (hL : L < 2 ^ 32) (hT : T.length = 4)
      (hD : D.length = L) (hc1 : c1.length = 4) (hc2 : c2.length = 4)
      (ht : png_crc_equiv t1 t2) :
      png_crc_equiv (png_be32_bytes L ++ (T ++ (D ++ (c1 ++ t1))))
        (png_be32_bytes L ++ (T ++ (D ++ (c2 ++ t2))))

/-- Channel count from the IHDR color type: 0, 2, 4, 6 give 1, 3, 2, 4 channels;
anything else (including palette color type 3) fails. -/
def png_channels_of_color (ct : Nat) : Option Nat :=
  if ct = 0 then some 1
  else if ct = 2 then some 3
  else if ct = 4 then some 2
  else if ct = 6 then some 4
  else none

/-- Everything png_load_mem does before allocating and inflating: signature
check, the chunk loop, the width/height/IDAT presence checks, and the
color-type-to-channels mapping. No size or overflow check happens here or
anywhere later: a successful parse goes straight to allocation and inflate. -/
def png_parse_chunks (data : List Nat) : Option (Nat × Nat × Nat × List Nat) :=
  if data.length < 8 then none
  else if data.take 8 ≠ png_signature then none
  else
    let st := png_parse_loop (data.drop 8) ⟨0, 0, 0, none⟩
    if st.width = 0 then none
    else if st.height = 0 then none
    else
      match st.idat with
      | none => none
      | some idat =>
        match png_channels_of_color st.colorType with
        | none => none
        | some channels => some (st.width, st.height, channels, idat)

/-- The row loop of png_load_mem: raw holds height rows of 1 filter byte plus
width*channels data bytes; each row is unfiltered against the previously
reconstructed row and copied into the image buffer. -/
def png_assemble_go (raw : List Nat) (h width channels : Nat) (prev : List Nat) :
    List Nat :=
  match h with
  | 0 => []
  | hh + 1 =>
    let filter := raw.getD 0 0
    let row := (raw.drop 1).take (width * channels)
    let recon := png_unfilter_row row prev filter width channels
    recon ++ png_assemble_go (raw.drop (1 + width * channels)) hh width channels recon

/-- png_load_mem: parse the container, inflate the accumulated IDAT stream to
exactly height*(1 + width*channels) bytes, then unfilter row by row. -/
def png_load_mem (data : List Nat) : Option png_image :=
  match png_parse_chunks data with
  | none => none
  | some (w, h, channels, idat) =>
    match png_inflate_zlib idat (h * (1 + w * channels)) with
    | none => none
    | some raw => some ⟨w, h, channels, png_assemble_go raw h w channels []⟩

/-! ## Concrete byte inputs used by the claims -/

/-- A 1x1 grayscale PNG (stored-mode zlib IDAT for the raw row bytes 0, 7) whose
chunk CRC fields are all zero, which does not match the true CRC of any chunk. -/
def file_crc_zeroed : List Nat :=
  png_signature
    ++ [0, 0, 0, 13] ++ png_type_IHDR ++ [0, 0, 0, 1, 0, 0, 0, 1, 8, 0, 0, 0, 0]
    ++ [0, 0, 0, 0]
    ++ [0, 0, 0, 13] ++ png_type_IDAT ++ [120, 1, 1, 2, 0, 253, 255, 0, 7, 0, 9, 0, 8]
    ++ [0, 0, 0, 0]
    ++ [0, 0, 0, 0] ++ png_type_IEND ++ [0, 0, 0, 0]

/-- The same file with different (still arbitrary) CRC fields on every chunk. -/
def file_crc_other : List Nat :=
  png_signature
    ++ [0, 0, 0, 13] ++ png_type_IHDR ++ [0, 0, 0, 1, 0, 0, 0, 1, 8, 0, 0, 0, 0]
    ++ [9, 9, 9, 9]
    ++ [0, 0, 0, 13] ++ png_type_IDAT ++ [120, 1, 1, 2, 0, 253, 255, 0, 7, 0, 9, 0, 8]
    ++ [7, 7, 7, 7]
    ++ [0, 0, 0, 0] ++ png_type_IEND ++ [1, 2, 3, 4]

/-- The same IHDR and IDAT followed by a chunk header that declares 100 payload
bytes with no bytes left in the input: its length overruns the input end. -/
def file_overrun : List Nat :=
  png_signature
    ++ [0, 0, 0, 13] ++ png_type_IHDR ++ [0, 0, 0, 1, 0, 0, 0, 1, 8, 0, 0, 0, 0]
    ++ [0, 0, 0, 0]
    ++ [0, 0, 0, 13] ++ png_type_IDAT ++ [120, 1, 1, 2, 0, 253, 255, 0, 7, 0, 9, 0, 8]
    ++ [0, 0, 0, 0]
    ++ [0, 0, 0, 100] ++ [88, 88, 88, 88]

/-- A 1x1 grayscale PNG whose single row carries the out-of-range filter byte 5
(IDAT is the stored-mode zlib stream of the raw row bytes 5, 7). -/
def file_filter5 : List Nat :=
  png_signature
    ++ [0, 0, 0, 13] ++ png_type_IHDR ++ [0, 0, 0, 1, 0, 0, 0, 1, 8, 0, 0, 0, 0]
    ++ [0, 0, 0, 0]
    ++ [0, 0, 0, 13] ++ png_type_IDAT ++ [120, 1, 1, 2, 0, 253, 255, 5, 7, 0, 19, 0, 13]
    ++ [0, 0, 0, 0]
    ++ [0, 0, 0, 0] ++ png_type_IEND ++ [0, 0, 0, 0]

/-- A file whose IHDR declares bit depth 16, compression 9, filter 7 and
interlace 1 around otherwise valid 1x1 grayscale content. -/
def file_bad_ihdr_fields : List Nat :=
  png_signature
    ++ [0, 0, 0, 13] ++ png_type_IHDR ++ [0, 0, 0, 1, 0, 0, 0, 1, 16, 0, 9, 7, 1]
    ++ [0, 0, 0, 0]
    ++ [0, 0, 0, 13] ++ png_type_IDAT ++ [120, 1, 1, 2, 0, 253, 255, 0, 7, 0, 9, 0, 8]
    ++ [0, 0, 0, 0]
    ++ [0, 0, 0, 0] ++ png_type_IEND ++ [0, 0, 0, 0]

/-- A file whose IHDR declares width = height = 2^24 with color type 6 (four
channels), so that both width*height*channels and height*(1+width*channels)
overflow a 32-bit int; the IDAT payload is a single junk byte. -/
def file_huge_dims : List Nat :=
  png_signature
    ++ [0, 0, 0, 13] ++ png_type_IHDR ++ [1, 0, 0, 0, 1, 0, 0, 0, 8, 6, 0, 0, 0]
    ++ [0, 0, 0, 0]
    ++ [0, 0, 0, 1] ++ png_type_IDAT ++ [1] ++ [0, 0, 0, 0]
    ++ [0, 0, 0, 0] ++ png_type_IEND ++ [0, 0, 0, 0]

/-! ## Theorems -/

set_option maxRecDepth 100000

/-- Unfolding equation for one step of the back-reference copy. -/
theorem png_backref_copy_succ (out : List Nat) (d n : Nat) :
    png_backref_copy out d (n + 1) =
      png_backref_copy (out ++ [out.getD (out.length - d) 0]) d n := rfl

/-- The back-reference copy appends exactly length bytes. -/
theorem png_backref_copy_length (d : Nat) :
    ∀ (l : Nat) (out : List Nat),
      (png_backref_copy out d l).length = out.length + l := by
  intro l
  induction l with
  | zero => intro out; rfl
  | succ n ih =>
    intro out
    rw [png_backref_copy_succ, ih]
    simp
    omega

/-- The back-reference copy never changes already-written bytes. -/
theorem png_backref_copy_getD_lt (d : Nat) :
    ∀ (l : Nat) (out : List Nat) (i : Nat), i < out.length →
      (png_backref_copy out d l).getD i 0 = out.getD i 0 := by
  intro l
  induction l with
  | zero => intro out i _; rfl
  | succ n ih =>
    intro out i hi
    rw [png_backref_copy_succ, ih _ i (by simp; omega), List.getD_append _ _ _ _ hi]

/-- C10: the public API tolerates NULL arguments — png_free(NULL) performs no
deallocation, png_clone(NULL) returns NULL, and png_save / png_save_with_text
return -1 and write nothing whenever the image or the path is NULL. -/
theorem c10_null_tolerance :
    png_free none = 0 ∧ png_clone none = none ∧
    (∀ p, png_save none p = (-1, none)) ∧
    (∀ i, png_save i none = (-1, none)) ∧
    (∀ p k t, png_save_with_text none p k t = (-1, none)) ∧
    (∀ i k t, png_save_with_text i none k t = (-1, none)) := by
  refine ⟨rfl, rfl, fun p => rfl, fun i => ?_, fun p k t => rfl, fun i k t => ?_⟩
  · cases i <;> rfl
  · cases i <;> rfl

/-- C3 counterexample: a well-formed PNG whose single row carries filter byte 5
decodes successfully (the claim requires decoding to fail). -/
theorem c3_filter5_decodes_cex :
    png_load_mem file_filter5 = some ⟨1, 1, 1, [7]⟩ := by decide

/-- C3 amended: a filter byte above 4 falls through the filter switch without a
default case, so png_unfilter_row returns the row unchanged (unknown filter
types are silently treated as no filtering, not as fatal errors). -/
theorem c3_unknown_filter_identity (row prev : List Nat) (filter width channels : Nat)
    (h : filter > 4) : png_unfilter_row row prev filter width channels = row := by
  unfold png_unfilter_row
  rw [if_neg (by omega), if_neg (by omega), if_neg (by omega), if_neg (by omega),
    if_neg (by omega)]

/-- Witness for the C3 amended theorem at a concrete row. -/
theorem c3_unknown_filter_identity_witness :
    5 > 4 ∧ png_unfilter_row [1, 2, 3] [4, 5, 6] 5 3 1 = [1, 2, 3] :=
  ⟨by decide, c3_unknown_filter_identity [1, 2, 3] [4, 5, 6] 5 3 1 (by decide)⟩

/-- C4: png_load_mem never reads the IHDR bit depth, compression, filter or
interlace bytes — a file declaring bit depth 16, compression 9, filter 7 and
interlace 1 (file bytes 24, 26, 27, 28) decodes successfully, where the claim
(and the spec) require rejection. -/
theorem c4_ihdr_fields_ignored :
    png_load_mem file_bad_ihdr_fields = some ⟨1, 1, 1, [7]⟩ ∧
    file_bad_ihdr_fields.getD 24 0 = 16 ∧
    file_bad_ihdr_fields.getD 26 0 = 9 ∧
    file_bad_ihdr_fields.getD 27 0 = 7 ∧
    file_bad_ihdr_fields.getD 28 0 = 1 := by decide

/-- C5: no overflow rejection exists — a file declaring width = height = 2^24
with 4 channels passes png_parse_chunks (everything png_load_mem does before
allocating and inflating), although width*height*channels and
height*(1+width*channels) far exceed the 32-bit int range, so decode proceeds
to allocation with an overflowed size computation. -/
theorem c5_no_overflow_check :
    png_parse_chunks file_huge_dims = some (16777216, 16777216, 4, [1]) ∧
    2 ^ 31 ≤ 16777216 * 16777216 * 4 ∧
    2 ^ 31 ≤ 16777216 * (1 + 16777216 * 4) := by decide

/-- C2 counterexample: file_crc_zeroed stores 0 as every chunk CRC field while
the true CRC-32 of its IHDR chunk is nonzero, yet png_load_mem decodes the file
successfully — the claim requires decoding to fail on any CRC mismatch. -/
theorem c2_crc_mismatch_decodes_cex :
    png_load_mem file_crc_zeroed = some ⟨1, 1, 1, [7]⟩ ∧
    png_crc (png_type_IHDR ++ [0, 0, 0, 1, 0, 0, 0, 1, 8, 0, 0, 0, 0]) ≠
      png_read_be32_mem [0, 0, 0, 0] := by decide

/-- Pointwise overlap property of the byte-at-a-time copy: every byte written at
absolute position out.length + i repeats the byte distance positions earlier in
the final buffer. -/
theorem png_backref_copy_overlap :
    ∀ (l : Nat) (out : List Nat) (d i : Nat), 1 ≤ d → d ≤ out.length → i < l →
      (png_backref_copy out d l).getD (out.length + i) 0 =
        (png_backref_copy out d l).getD (out.length + i - d) 0 := by
  intro l
  induction l with
  | zero => intro out d i _ _ hi; omega
  | succ n ih =>
    intro out d i hd hdl hi
    rw [png_backref_copy_succ]
    rcases Nat.eq_zero_or_pos i with hz | hp
    · subst hz
      rw [png_backref_copy_getD_lt d n _ (out.length + 0) (by simp),
        png_backref_copy_getD_lt d n _ (out.length + 0 - d) (by simp; omega)]
      rw [Nat.add_zero, List.getD_append_right _ _ _ _ (Nat.le_refl _),
        List.getD_append _ _ _ _ (by omega)]
      simp
    · obtain ⟨j, rfl⟩ : ∃ j, i = j + 1 := ⟨i - 1, by omega⟩
      have h1 : out.length + (j + 1) = (out ++ [out.getD (out.length - d) 0]).length + j := by
        simp
        omega
      rw [h1]
      exact ih _ d j hd (by simp; omega) (by omega)

/-- C6: the inflate back-reference step fails exactly when the distance is 0,
exceeds the bytes written so far, or the copy would pass the expected length;
when it succeeds it performs the byte-at-a-time overlapping copy, whose every
written byte equals the byte distance positions before it, and which turns AB
with a length-5 distance-2 reference into ABABABA. -/
theorem c6_lz77_backref :
    (∀ out d l e, (png_lz77_step out d l e).isSome ↔
      (1 ≤ d ∧ d ≤ out.length ∧ out.length + l ≤ e)) ∧
    (∀ out d l e r, png_lz77_step out d l e = some r → r = png_backref_copy out d l) ∧
    (∀ out d l i, 1 ≤ d → d ≤ out.length → i < l →
      (png_backref_copy out d l).getD (out.length + i) 0 =
        (png_backref_copy out d l).getD (out.length + i - d) 0) ∧
    png_backref_copy [65, 66] 2 5 = [65, 66, 65, 66, 65, 66, 65] := by
  refine ⟨?_, ?_, ?_, by decide⟩
  · intro out d l e
    unfold png_lz77_step
    split_ifs with h1 h2 <;> simp <;> omega
  · intro out d l e r h
    unfold png_lz77_step at h
    split_ifs at h <;> simp_all
  · intro out d l i h1 h2 h3
    exact png_backref_copy_overlap l out d i h1 h2 h3

/-- Witness for C6 at the AB example: byte 3 of ABABABA repeats byte 1. -/
theorem c6_lz77_backref_witness :
    (png_backref_copy [65, 66] 2 5).getD (2 + 1) 0 =
      (png_backref_copy [65, 66] 2 5).getD (2 + 1 - 2) 0 :=
  c6_lz77_backref.2.2.1 [65, 66] 2 5 1 (by decide) (by decide) (by decide)

/-- png_abs computes the integer absolute value. -/
theorem png_abs_eq_abs (x : Int) : png_abs x = |x| := by
  unfold png_abs
  split_ifs with h
  · exact (abs_of_neg h).symm
  · exact (abs_of_nonneg (le_of_not_lt h)).symm

/-- The C Paeth predictor computation equals the specification wording. -/
theorem png_paeth_pr_eq_spec (a b c : Nat) :
    png_paeth_pr a b c = paeth_predictor_spec a b c := by
  simp only [png_paeth_pr, paeth_predictor_spec, png_abs_eq_abs]

/-- getD after an update at a different index. -/
theorem getD_set_ne (l : List Nat) (i j a : Nat) (h : i ≠ j) :
    (l.set i a).getD j 0 = l.getD j 0 := by
  rw [List.getD_eq_getD_get?, List.getD_eq_getD_get?, List.get?_set_ne a _ h]

/-- getD after an in-bounds update at the same index. -/
theorem getD_set_self (l : List Nat) (i a : Nat) (h : i < l.length) :
    (l.set i a).getD i 0 = a := by
  rw [List.getD_eq_getD_get?, List.get?_set_eq_of_lt a h]
  rfl

/-- png_paeth_set preserves the row length. -/
theorem png_paeth_set_length (prev : List Nat) (bpp : Nat) (r : List Nat) (i : Nat) :
    (png_paeth_set prev bpp r i).length = r.length := by
  unfold png_paeth_set
  exact List.length_set r _ _

/-- The b neighbor of the filter 4 loop body equals prev.getD i 0. -/
theorem png_paeth_b_eq (prev : List Nat) (i : Nat) :
    (if prev = [] then 0 else prev.getD i 0) = prev.getD i 0 := by
  split_ifs with h
  · rw [h]
    rfl
  · rfl

/-- The c neighbor of the filter 4 loop body equals the guarded upper-left read. -/
theorem png_paeth_c_eq (prev : List Nat) (bpp i : Nat) :
    (if prev ≠ [] ∧ i ≥ bpp then prev.getD (i - bpp) 0 else 0) =
      (if bpp ≤ i then prev.getD (i - bpp) 0 else 0) := by
  rcases eq_or_ne prev [] with h | h
  · subst h
    simp [List.getD]
  · simp [h]

/-- Unfolding equation for one step of the Paeth reconstruction loop. -/
theorem png_unfilter_paeth_go_succ (prev : List Nat) (bpp : Nat) (r : List Nat)
    (i s : Nat) :
    png_unfilter_paeth_go prev bpp r i (s + 1) =
      png_unfilter_paeth_go prev bpp (png_paeth_set prev bpp r i) (i + 1) s := rfl

/-- Behaviour of the Paeth reconstruction loop: the result keeps the row length,
leaves bytes outside the processed window unchanged, and writes at every
in-bounds processed index the wrapped sum of the raw byte and the Paeth
predictor of the reconstructed left, above and upper-left neighbors. -/
theorem png_paeth_go_spec (prev : List Nat) (bpp : Nat) (hbpp : 1 ≤ bpp) :
    ∀ (steps i : Nat) (r : List Nat),
      (png_unfilter_paeth_go prev bpp r i steps).length = r.length ∧
      (∀ j, j < i ∨ i + steps ≤ j →
        (png_unfilter_paeth_go prev bpp r i steps).getD j 0 = r.getD j 0) ∧
      (∀ j, i ≤ j → j < i + steps → j < r.length →
        (png_unfilter_paeth_go prev bpp r i steps).getD j 0 =
          (r.getD j 0 +
            png_paeth_pr
              (if bpp ≤ j then (png_unfilter_paeth_go prev bpp r i steps).getD (j - bpp) 0
               else 0)
              (prev.getD j 0)
              (if bpp ≤ j then prev.getD (j - bpp) 0 else 0)) % 256) := by
  intro steps
  induction steps with
  | zero =>
    intro i r
    refine ⟨rfl, fun j _ => rfl, fun j h1 h2 _ => ?_⟩
    omega
  | succ s ih =>
    intro i r
    simp only [png_unfilter_paeth_go_succ]
    obtain ⟨ihlen, ihout, ihin⟩ := ih (i + 1) (png_paeth_set prev bpp r i)
    have hset_ne : ∀ j, j ≠ i → (png_paeth_set prev bpp r i).getD j 0 = r.getD j 0 := by
      intro j hj
      unfold png_paeth_set
      exact getD_set_ne _ _ _ _ (Ne.symm hj)
    refine ⟨by rw [ihlen, png_paeth_set_length], ?_, ?_⟩
    · intro j hj
      have hji : j ≠ i := by omega
      rw [ihout j (by omega), hset_ne j hji]
    · intro j hj1 hj2 hj3
      rcases eq_or_ne j i with rfl | hne
      · have hout : (png_unfilter_paeth_go prev bpp (png_paeth_set prev bpp r j) (j + 1) s).getD j 0 =
            (png_paeth_set prev bpp r j).getD j 0 := ihout j (by omega)
        rw [hout]
        have hwrite : (png_paeth_set prev bpp r j).getD j 0 =
            (r.getD j 0 +
              png_paeth_pr (if j ≥ bpp then r.getD (j - bpp) 0 else 0)
                (if prev = [] then 0 else prev.getD j 0)
                (if prev ≠ [] ∧ j ≥ bpp then prev.getD (j - bpp) 0 else 0)) % 256 := by
          unfold png_paeth_set
          exact getD_set_self _ _ _ hj3
        have ha : (if bpp ≤ j then
            (png_unfilter_paeth_go prev bpp (png_paeth_set prev bpp r j) (j + 1) s).getD
              (j - bpp) 0
          else 0) = (if bpp ≤ j then r.getD (j - bpp) 0 else 0) := by
          rcases Nat.lt_or_ge j bpp with hlt | hge
          · rw [if_neg (by omega), if_neg (by omega)]
          · rw [if_pos hge, if_pos hge, ihout (j - bpp) (Or.inl (by omega)),
              hset_ne (j - bpp) (by omega)]
        rw [hwrite, png_paeth_b_eq, png_paeth_c_eq, ha]
      · have hj1' : i + 1 ≤ j := by omega
        rw [ihin j hj1' (by omega) (by rw [png_paeth_set_length]; exact hj3),
          hset_ne j hne]

/-- C7: for every in-bounds index i of a filter 4 row, reconstruction sets the
byte to (raw + PaethPredictor(a, b, c)) mod 256, where a, b, c are the left,
above and upper-left reconstructed neighbors (0 when absent) and the predictor
follows the specification wording with ties resolved in the order a, b, c. -/
theorem c7_paeth_reconstruction (row prev : List Nat) (width channels i : Nat)
    (hi : i < width * channels) (hrow : row.length = width * channels) :
    (png_unfilter_row row prev 4 width channels).getD i 0 =
      (row.getD i 0 +
        paeth_predictor_spec
          (if channels ≤ i then
            (png_unfilter_row row prev 4 width channels).getD (i - channels) 0
           else 0)
          (prev.getD i 0)
          (if channels ≤ i then prev.getD (i - channels) 0 else 0)) % 256 := by
  have hbpp : 1 ≤ channels := by
    rcases Nat.eq_zero_or_pos channels with h | h
    · subst h
      omega
    · exact h
  have hrun : png_unfilter_row row prev 4 width channels =
      png_unfilter_paeth_go prev channels row 0 (width * channels) := by
    unfold png_unfilter_row
    norm_num
  rw [hrun]
  obtain ⟨_, _, hin⟩ := png_paeth_go_spec prev channels hbpp (width * channels) 0 row
  rw [← png_paeth_pr_eq_spec]
  exact hin i (Nat.zero_le i) (by omega) (by omega)

/-- Witness for C7 on the spec scenario row: prev 10 20 30, raw row 5 5 5,
width 3, one channel, at index 1. -/
theorem c7_paeth_reconstruction_witness :
    (png_unfilter_row [5, 5, 5] [10, 20, 30] 4 3 1).getD 1 0 =
      ([5, 5, 5].getD 1 0 +
        paeth_predictor_spec
          (if 1 ≤ 1 then (png_unfilter_row [5, 5, 5] [10, 20, 30] 4 3 1).getD (1 - 1) 0
           else 0)
          ([10, 20, 30].getD 1 0)
          (if 1 ≤ 1 then [10, 20, 30].getD (1 - 1) 0 else 0)) % 256 :=
  c7_paeth_reconstruction [5, 5, 5] [10, 20, 30] 3 1 1 (by decide) (by decide)

/-- A successful inflate returns exactly the expected number of bytes (the block
loop result is checked against expected_len before the Adler-32 check). -/
theorem png_inflate_zlib_length (data : List Nat) (e : Nat) (out : List Nat)
    (h : png_inflate_zlib data e = some out) : out.length = e := by
  simp only [png_inflate_zlib] at h
  repeat' split at h
  all_goals simp_all

/-- The color-type switch only ever yields 1, 2, 3 or 4 channels. -/
theorem png_channels_of_color_mem (ct ch : Nat) (h : png_channels_of_color ct = some ch) :
    ch = 1 ∨ ch = 2 ∨ ch = 3 ∨ ch = 4 := by
  simp only [png_channels_of_color] at h
  repeat' split at h
  all_goals simp_all

/-- A successful chunk parse carries a channel count produced by the switch. -/
theorem png_parse_chunks_channels (input : List Nat) (w hh ch : Nat) (idat : List Nat)
    (h : png_parse_chunks input = some (w, hh, ch, idat)) :
    ch = 1 ∨ ch = 2 ∨ ch = 3 ∨ ch = 4 := by
  simp only [png_parse_chunks] at h
  repeat' split at h
  all_goals simp_all
  all_goals (apply png_channels_of_color_mem; assumption)

/-- Inversion of png_load_mem: a successful decode factors through a successful
parse, a successful inflate of the accumulated IDAT bytes to the predicted raw
length, and row-by-row assembly. -/
theorem png_load_mem_inv (input : List Nat) (img : png_image)
    (h : png_load_mem input = some img) :
    ∃ w hh ch idat raw,
      png_parse_chunks input = some (w, hh, ch, idat) ∧
      png_inflate_zlib idat (hh * (1 + w * ch)) = some raw ∧
      img = ⟨w, hh, ch, png_assemble_go raw hh w ch []⟩ := by
  simp only [png_load_mem] at h
  repeat' split at h
  · simp_all
  · simp_all
  · exact ⟨_, _, _, _, _, by assumption, by assumption, by simp_all⟩

/-- The Sub filter loop preserves the row length. -/
theorem png_unfilter_sub_go_length (bpp : Nat) :
    ∀ (steps i : Nat) (r : List Nat),
      (png_unfilter_sub_go bpp r i steps).length = r.length := by
  intro steps
  induction steps with
  | zero => intro i r; rfl
  | succ s ih =>
    intro i r
    show (png_unfilter_sub_go bpp _ (i + 1) s).length = _
    rw [ih]
    exact List.length_set r _ _

/-- The Up filter loop preserves the row length. -/
theorem png_unfilter_up_go_length (prev : List Nat) :
    ∀ (steps i : Nat) (r : List Nat),
      (png_unfilter_up_go prev r i steps).length = r.length := by
  intro steps
  induction steps with
  | zero => intro i r; rfl
  | succ s ih =>
    intro i r
    show (png_unfilter_up_go prev _ (i + 1) s).length = _
    rw [ih]
    exact List.length_set r _ _

/-- The Average filter loop preserves the row length. -/
theorem png_unfilter_avg_go_length (prev : List Nat) (bpp : Nat) :
    ∀ (steps i : Nat) (r : List Nat),
      (png_unfilter_avg_go prev bpp r i steps).length = r.length := by
  intro steps
  induction steps with
  | zero => intro i r; rfl
  | succ s ih =>
    intro i r
    show (png_unfilter_avg_go prev bpp _ (i + 1) s).length = _
    rw [ih]
    exact List.length_set r _ _

/-- The Paeth filter loop preserves the row length. -/
theorem png_unfilter_paeth_go_length (prev : List Nat) (bpp : Nat) :
    ∀ (steps i : Nat) (r : List Nat),
      (png_unfilter_paeth_go prev bpp r i steps).length = r.length := by
  intro steps
  induction steps with
  | zero => intro i r; rfl
  | succ s ih =>
    intro i r
    rw [png_unfilter_paeth_go_succ, ih, png_paeth_set_length]

/-- png_unfilter_row preserves the row length for every filter byte. -/
theorem png_unfilter_row_length (row prev : List Nat) (filter width channels : Nat) :
    (png_unfilter_row row prev filter width channels).length = row.length := by
  unfold png_unfilter_row
  split_ifs with h0 h1 h2 hp h3 h4
  · rfl
  · exact png_unfilter_sub_go_length channels _ _ row
  · rfl
  · exact png_unfilter_up_go_length prev _ _ row
  · exact png_unfilter_avg_go_length prev channels _ _ row
  · exact png_unfilter_paeth_go_length prev channels _ _ row
  · rfl

/-- Assembling height rows out of a raw buffer of exactly
height*(1 + width*channels) bytes yields height*(width*channels) pixel bytes. -/
theorem png_assemble_go_length (width channels : Nat) :
    ∀ (hh : Nat) (raw prev : List Nat),
      raw.length = hh * (1 + width * channels) →
      (png_assemble_go raw hh width channels prev).length = hh * (width * channels) := by
  intro hh
  induction hh with
  | zero => intro raw prev _; simp [png_assemble_go]
  | succ n ih =>
    intro raw prev hlen
    have e1 : raw.length = n * (width * channels) + n + (width * channels) + 1 := by
      rw [hlen]
      ring
    have hstep : (raw.drop (1 + width * channels)).length = n * (1 + width * channels) := by
      rw [List.length_drop]
      have e3 : n * (1 + width * channels) = n * (width * channels) + n := by ring
      omega
    show ((png_unfilter_row _ prev _ width channels) ++ png_assemble_go _ n _ _ _).length = _
    rw [List.length_append, png_unfilter_row_length, List.length_take, ih _ _ hstep]
    have e2 : (n + 1) * (width * channels) = n * (width * channels) + width * channels := by
      ring
    rw [List.length_drop]
    omega

/-- C9: every image produced by png_create, png_clone or a successful
png_load_mem has a pixel buffer of exactly width*height*channels bytes, the
clone keeps the source's channels, and png_load_mem only ever yields
channels 1, 2, 3 or 4. -/
theorem c9_buffer_invariants :
    (∀ w h c, (png_create w h c).data.length =
      (png_create w h c).width * (png_create w h c).height * (png_create w h c).channels) ∧
    (∀ img cl, png_clone (some img) = some cl →
      cl.data.length = cl.width * cl.height * cl.channels ∧
      cl.channels = img.channels) ∧
    (∀ input img, png_load_mem input = some img →
      img.data.length = img.width * img.height * img.channels ∧
      (img.channels = 1 ∨ img.channels = 2 ∨ img.channels = 3 ∨ img.channels = 4)) := by
  refine ⟨?_, ?_, ?_⟩
  · intro w h c
    simp [png_create]
  · intro img cl h
    simp only [png_clone, Option.some_inj] at h
    subst h
    simp
  · intro input img h
    obtain ⟨w, hh, ch, idat, raw, hp, hz, rfl⟩ := png_load_mem_inv input img h
    have hlen := png_inflate_zlib_length _ _ _ hz
    have hassemble := png_assemble_go_length w ch hh raw [] hlen
    refine ⟨?_, png_parse_chunks_channels input w hh ch idat hp⟩
    simp only [hassemble]
    ring

/-- Witness for C9: the invariant instantiated on a concrete decoded file. -/
theorem c9_buffer_invariants_witness :
    png_load_mem file_crc_zeroed = some ⟨1, 1, 1, [7]⟩ ∧
    ((png_image.mk 1 1 1 [7]).data.length =
        (png_image.mk 1 1 1 [7]).width * (png_image.mk 1 1 1 [7]).height *
          (png_image.mk 1 1 1 [7]).channels ∧
      ((png_image.mk 1 1 1 [7]).channels = 1 ∨ (png_image.mk 1 1 1 [7]).channels = 2 ∨
        (png_image.mk 1 1 1 [7]).channels = 3 ∨ (png_image.mk 1 1 1 [7]).channels = 4)) :=
  ⟨by decide, c9_buffer_invariants.2.2 file_crc_zeroed ⟨1, 1, 1, [7]⟩ (by decide)⟩

theorem png_count_lengths_none_iff :
    ∀ (ls cnt : List Nat), png_count_lengths ls cnt = none ↔ ∃ x ∈ ls, 15 < x := by
  intro ls
  induction ls with
  | nil => intro cnt; simp [png_count_lengths]
  | cons x rest ih =>
    intro cnt
    simp only [png_count_lengths]
    split_ifs with hx
    · exact iff_of_true rfl ⟨x, List.mem_cons_self x rest, hx⟩
    · rw [ih]
      constructor
      · rintro ⟨y, hy, h15⟩
        exact ⟨y, List.mem_cons_of_mem x hy, h15⟩
      · rintro ⟨y, hy, h15⟩
        rcases List.mem_cons.mp hy with rfl | hy2
        · omega
        · exact ⟨y, hy2, h15⟩

theorem png_count_lengths_some :
    ∀ (ls cnt final : List Nat), cnt.length = 16 →
      png_count_lengths ls cnt = some final →
      final.length = 16 ∧ ∀ l, l ≤ 15 → final.getD l 0 = cnt.getD l 0 + ls.count l := by
  intro ls
  induction ls with
  | nil =>
    intro cnt final hlen h
    simp only [png_count_lengths, Option.some_inj] at h
    subst h
    exact ⟨hlen, fun l _ => by simp [List.count_nil]⟩
  | cons x rest ih =>
    intro cnt final hlen h
    simp only [png_count_lengths] at h
    split_ifs at h with hx
    have hlen2 : (cnt.set x (cnt.getD x 0 + 1)).length = 16 := by
      rw [List.length_set]; exact hlen
    obtain ⟨hfl, hval⟩ := ih _ final hlen2 h
    refine ⟨hfl, fun l hl => ?_⟩
    rw [hval l hl, List.count_cons]
    rcases eq_or_ne x l with rfl | hne
    · rw [getD_set_self _ _ _ (by omega), beq_self_eq_true]
      simp
      omega
    · rw [getD_set_ne _ _ _ _ hne]
      have : (x == l) = false := beq_eq_false_iff_ne.mpr hne
      rw [this]
      simp

theorem png_kraft_go_none_iff (cnt ls : List Nat)
    (hcnt : ∀ l, 1 ≤ l → l ≤ 15 → cnt.getD l 0 = ls.count l) :
    ∀ (rem j : Nat), j + rem ≤ 15 →
      (png_kraft_go cnt (png_kraft_left_spec ls j) (j + 1) rem = none ↔
        ∃ l, j < l ∧ l ≤ j + rem ∧ png_kraft_left_spec ls l < 0) := by
  intro rem
  induction rem with
  | zero =>
    intro j hj
    refine iff_of_false (by simp [png_kraft_go]) ?_
    rintro ⟨l, h1, h2, _⟩
    omega
  | succ r ih =>
    intro j hj
    have hv : png_kraft_left_spec ls j * 2 - (cnt.getD (j + 1) 0 : Int) =
        png_kraft_left_spec ls (j + 1) := by
      rw [hcnt (j + 1) (by omega) (by omega)]
      show _ = 2 * png_kraft_left_spec ls j - (ls.count (j + 1) : Int)
      ring
    show (if png_kraft_left_spec ls j * 2 - (cnt.getD (j + 1) 0 : Int) < 0 then none
      else png_kraft_go cnt (png_kraft_left_spec ls j * 2 - (cnt.getD (j + 1) 0 : Int))
        (j + 1 + 1) r) = none ↔ _
    rw [hv]
    split_ifs with hneg
    · refine iff_of_true rfl ⟨j + 1, by omega, by omega, hneg⟩
    · rw [ih (j + 1) (by omega)]
      constructor
      · rintro ⟨l, h1, h2, h3⟩
        exact ⟨l, by omega, by omega, h3⟩
      · rintro ⟨l, h1, h2, h3⟩
        refine ⟨l, ?_, by omega, h3⟩
        rcases eq_or_ne l (j + 1) with rfl | hne
        · exact absurd h3 (by omega)
        · omega


theorem png_offs_start_succ_eq (ls : List Nat) (l : Nat) (hl : 1 ≤ l) :
    png_offs_start ls (l + 1) = png_offs_start ls l + ls.count l := by
  simp [png_offs_start, hl]

theorem png_offs_start_mono (ls : List Nat) :
    ∀ b a, a ≤ b → png_offs_start ls a ≤ png_offs_start ls b := by
  intro b
  induction b with
  | zero => intro a h; have : a = 0 := by omega
            subst this; exact Nat.le_refl _
  | succ n ih =>
    intro a h
    rcases Nat.lt_or_ge a (n + 1) with h2 | h2
    · refine Nat.le_trans (ih a (by omega)) ?_
      show png_offs_start ls n ≤ png_offs_start ls n + _
      exact Nat.le_add_right _ _
    · have : a = n + 1 := by omega
      subst this; exact Nat.le_refl _

theorem png_offs_start_nil : ∀ len, png_offs_start [] len = 0 := by
  intro len
  induction len with
  | zero => rfl
  | succ n ih => simp [png_offs_start, ih]

theorem png_offs_start_cons (x : Nat) (ls : List Nat) :
    ∀ len, png_offs_start (x :: ls) len =
      png_offs_start ls len + (if 1 ≤ x ∧ x < len then 1 else 0) := by
  intro len
  induction len with
  | zero => simp [png_offs_start]
  | succ l ihl =>
    show png_offs_start (x :: ls) l + _ = _
    rw [ihl]
    show _ + (if 1 ≤ l then (x :: ls).count l else 0) =
      png_offs_start ls l + (if 1 ≤ l then ls.count l else 0) + _
    rw [List.count_cons]
    rcases eq_or_ne x l with rfl | hne
    · rw [beq_self_eq_true]
      split_ifs <;> simp_all <;> omega
    · rw [beq_eq_false_iff_ne.mpr hne]
      split_ifs <;> simp_all <;> omega

theorem png_offs_start_le_length (ls : List Nat) :
    ∀ len, png_offs_start ls len ≤ ls.length := by
  induction ls with
  | nil => intro len; rw [png_offs_start_nil]; exact Nat.zero_le _
  | cons x rest ih =>
    intro len
    rw [png_offs_start_cons]
    have := ih len
    simp only [List.length_cons]
    split_ifs <;> omega

theorem count_eq_range_filter_length (P : List Nat) (v : Nat) :
    P.count v = ((List.range P.length).filter (fun i => P.getD i 0 = v)).length := by
  induction P using List.reverseRecOn with
  | nil => rfl
  | append_singleton P x ih =>
    rw [List.count_append, List.length_append, List.length_singleton, List.range_succ,
      List.filter_append]
    have hcongr : (List.range P.length).filter (fun i => (P ++ [x]).getD i 0 = v) =
        (List.range P.length).filter (fun i => P.getD i 0 = v) := by
      apply List.filter_congr
      intro i hi
      have hilt : i < P.length := List.mem_range.mp hi
      rw [List.getD_append _ _ _ _ hilt]
    rw [hcongr, List.length_append, ← ih]
    have hgetx : (P ++ [x]).getD P.length 0 = x := by
      rw [List.getD_append_right _ _ _ _ (Nat.le_refl _), Nat.sub_self]
      rfl
    congr 1
    rcases eq_or_ne x v with rfl | hne
    · simp [List.count_cons, hgetx]
    · simp [List.count_cons, hgetx, hne]


theorem filter_range_snoc (P : List Nat) (x v : Nat) :
    (List.range (P.length + 1)).filter (fun i => (P ++ [x]).getD i 0 = v) =
      ((List.range P.length).filter (fun i => P.getD i 0 = v)) ++
        (if x = v then [P.length] else []) := by
  rw [List.range_succ, List.filter_append]
  have hgetx : (P ++ [x]).getD P.length 0 = x := by
    rw [List.getD_append_right _ _ _ _ (Nat.le_refl _), Nat.sub_self]
    rfl
  congr 1
  · apply List.filter_congr
    intro i hi
    have hilt : i < P.length := List.mem_range.mp hi
    rw [List.getD_append _ _ _ _ hilt]
  · rcases eq_or_ne x v with rfl | hne
    · simp [hgetx]
    · simp [hgetx, hne]

theorem png_place_go_spec (L : List Nat) (hall : ∀ x ∈ L, x ≤ 15) (h288 : L.length ≤ 288) :
    ∀ (rest P offs sym : List Nat),
      L = P ++ rest →
      offs.length = 16 → sym.length = 288 →
      (∀ l, 1 ≤ l → l ≤ 15 → offs.getD l 0 = png_offs_start L l + P.count l) →
      (∀ l j, 1 ≤ l → l ≤ 15 → j < P.count l →
        sym.getD (png_offs_start L l + j) 0 =
          ((List.range P.length).filter (fun i => P.getD i 0 = l)).getD j 0) →
      ∀ l j, 1 ≤ l → l ≤ 15 → j < L.count l →
        (png_place_go rest P.length offs sym).2.getD (png_offs_start L l + j) 0 =
          ((List.range L.length).filter (fun i => L.getD i 0 = l)).getD j 0 := by
  intro rest
  induction rest with
  | nil =>
    intro P offs sym hL _ _ _ hsym l j h1 h15 hj
    rw [List.append_nil] at hL
    subst hL
    exact hsym l j h1 h15 hj
  | cons x rest' ih =>
    intro P offs sym hL hofflen hsymlen hoffs hsym l j h1 h15 hj
    have hxmem : x ∈ L := by
      rw [hL]
      exact List.mem_append_right P (List.mem_cons_self x rest')
    have hx15 : x ≤ 15 := hall x hxmem
    have hL' : L = (P ++ [x]) ++ rest' := by rw [hL, List.append_assoc]; rfl
    have hlenPx : (P ++ [x]).length = P.length + 1 := by simp
    have hcountL : ∀ v, (P ++ [x]).count v + rest'.count v = L.count v := by
      intro v
      rw [hL', List.count_append, List.count_append, List.count_append]
    have hcountPx : ∀ v, (P ++ [x]).count v = P.count v + (if x = v then 1 else 0) := by
      intro v
      rw [List.count_append, List.count_cons, List.count_nil]
      rcases eq_or_ne x v with rfl | hne
      · simp
      · simp [hne]
    have hprefix_le : ∀ v, (P ++ [x]).count v ≤ L.count v := by
      intro v
      rw [← hcountL v]
      exact Nat.le_add_right _ _
    by_cases hx0 : x ≠ 0
    · have hx1 : 1 ≤ x := by omega
      simp only [png_place_go]
      rw [if_pos hx0]
      have hpx : offs.getD x 0 = png_offs_start L x + P.count x := hoffs x hx1 hx15
      have hoffs2 : ∀ l2, 1 ≤ l2 → l2 ≤ 15 →
          (offs.set x (offs.getD x 0 + 1)).getD l2 0 =
            png_offs_start L l2 + (P ++ [x]).count l2 := by
        intro l2 hl2a hl2b
        rcases eq_or_ne x l2 with rfl | hne
        · rw [getD_set_self _ _ _ (by omega), hpx, hcountPx, if_pos rfl]
          omega
        · rw [getD_set_ne _ _ _ _ hne, hoffs l2 hl2a hl2b, hcountPx, if_neg hne]
          omega
      have hPxcx : (P ++ [x]).count x = P.count x + 1 := by
        rw [hcountPx, if_pos rfl]
      have hpcx_lt : P.count x < L.count x := by
        have := hprefix_le x
        omega
      have hstart_sx : png_offs_start L (x + 1) = png_offs_start L x + L.count x :=
        png_offs_start_succ_eq L x hx1
      have hsym2 : ∀ l2 j2, 1 ≤ l2 → l2 ≤ 15 → j2 < (P ++ [x]).count l2 →
          (sym.set (offs.getD x 0) P.length).getD (png_offs_start L l2 + j2) 0 =
            ((List.range (P ++ [x]).length).filter
              (fun i => (P ++ [x]).getD i 0 = l2)).getD j2 0 := by
        intro l2 j2 hl2a hl2b hj2
        rw [hlenPx, filter_range_snoc]
        rcases eq_or_ne l2 x with rfl | hne
        · have hflen : ((List.range P.length).filter
              (fun i => P.getD i 0 = l2)).length = P.count l2 :=
            (count_eq_range_filter_length P l2).symm
          rw [if_pos rfl]
          rcases Nat.lt_or_ge j2 (P.count l2) with hlt | hge
          · have hne_pos : png_offs_start L l2 + j2 ≠ offs.getD l2 0 := by
              rw [hpx]
              omega
            rw [getD_set_ne _ _ _ _ (Ne.symm hne_pos), hsym l2 j2 hl2a hl2b hlt,
              List.getD_append _ _ _ _ (by rw [hflen]; exact hlt)]
          · have hj2e : j2 = P.count l2 := by
              rw [hPxcx] at hj2
              omega
            subst hj2e
            have hbound : offs.getD l2 0 < sym.length := by
              rw [hpx, hsymlen]
              have h16 : png_offs_start L (l2 + 1) ≤ png_offs_start L 16 :=
                png_offs_start_mono L 16 (l2 + 1) (by omega)
              have hlen16 := png_offs_start_le_length L 16
              omega
            rw [← hpx, getD_set_self _ _ _ hbound,
              List.getD_append_right _ _ _ _ (by rw [hflen]), hflen, Nat.sub_self]
            rfl
        · have hj2' : j2 < P.count l2 := by
            have := hcountPx l2
            rw [if_neg (fun he => hne he.symm)] at this
            omega
          have hlx : png_offs_start L l2 + j2 ≠ offs.getD x 0 := by
            rw [hpx]
            rcases Nat.lt_or_ge l2 x with hlt | hge2
            · have hb1 : png_offs_start L l2 + j2 < png_offs_start L (l2 + 1) := by
                have hs := png_offs_start_succ_eq L l2 hl2a
                have hp := hprefix_le l2
                have hc := hcountPx l2
                rw [if_neg (fun he => hne he.symm)] at hc
                omega
              have hb2 : png_offs_start L (l2 + 1) ≤ png_offs_start L x :=
                png_offs_start_mono L x (l2 + 1) (by omega)
              omega
            · have hxlt : x < l2 := by omega
              have hb1 : png_offs_start L x + P.count x < png_offs_start L (x + 1) := by
                omega
              have hb2 : png_offs_start L (x + 1) ≤ png_offs_start L l2 :=
                png_offs_start_mono L l2 (x + 1) (by omega)
              omega
          rw [getD_set_ne _ _ _ _ (Ne.symm hlx), hsym l2 j2 hl2a hl2b hj2',
            if_neg (fun he => hne he.symm), List.append_nil]
      have hres := ih (P ++ [x]) (offs.set x (offs.getD x 0 + 1))
        (sym.set (offs.getD x 0) P.length) hL'
        (by rw [List.length_set]; exact hofflen)
        (by rw [List.length_set]; exact hsymlen)
        hoffs2 hsym2 l j h1 h15 hj
      rw [hlenPx] at hres
      exact hres
    · push_neg at hx0
      subst hx0
      simp only [png_place_go]
      rw [if_neg (by omega)]
      have hoffs2 : ∀ l2, 1 ≤ l2 → l2 ≤ 15 →
          offs.getD l2 0 = png_offs_start L l2 + (P ++ [0]).count l2 := by
        intro l2 hl2a hl2b
        rw [hoffs l2 hl2a hl2b, hcountPx, if_neg (by omega)]
        omega
      have hsym2 : ∀ l2 j2, 1 ≤ l2 → l2 ≤ 15 → j2 < (P ++ [0]).count l2 →
          sym.getD (png_offs_start L l2 + j2) 0 =
            ((List.range (P ++ [0]).length).filter
              (fun i => (P ++ [0]).getD i 0 = l2)).getD j2 0 := by
        intro l2 j2 hl2a hl2b hj2
        have hj2' : j2 < P.count l2 := by
          have := hcountPx l2
          rw [if_neg (by omega)] at this
          omega
        rw [hlenPx, filter_range_snoc, if_neg (by omega), List.append_nil]
        exact hsym l2 j2 hl2a hl2b hj2'
      have hres := ih (P ++ [0]) offs sym hL' hofflen hsymlen hoffs2 hsym2 l j h1 h15 hj
      rw [hlenPx] at hres
      exact hres


theorem getD_replicate_zero (n i : Nat) : (List.replicate n (0 : Nat)).getD i 0 = 0 := by
  rw [List.getD_eq_getD_get?]
  simp

theorem png_offs_go_length (cnt : List Nat) :
    ∀ (rem len : Nat) (offs : List Nat), (png_offs_go cnt offs len rem).length = offs.length := by
  intro rem
  induction rem with
  | zero => intro len offs; rfl
  | succ r ih =>
    intro len offs
    show (png_offs_go cnt _ (len + 1) r).length = _
    rw [ih, List.length_set]

theorem png_offs_go_spec (cnt ls : List Nat)
    (hcnt : ∀ l, 1 ≤ l → l ≤ 15 → cnt.getD l 0 = ls.count l) :
    ∀ (rem len : Nat) (offs : List Nat), offs.length = 16 → 1 ≤ len → len + rem ≤ 15 →
      (∀ l, 1 ≤ l → l ≤ len → offs.getD l 0 = png_offs_start ls l) →
      ∀ l, 1 ≤ l → l ≤ len + rem →
        (png_offs_go cnt offs len rem).getD l 0 = png_offs_start ls l := by
  intro rem
  induction rem with
  | zero =>
    intro len offs _ _ _ hinv l hl1 hl2
    exact hinv l hl1 (by omega)
  | succ r ih =>
    intro len offs hlen hlen1 hbound hinv l hl1 hl2
    show (png_offs_go cnt (offs.set (len + 1) (offs.getD len 0 + cnt.getD len 0))
      (len + 1) r).getD l 0 = _
    refine ih (len + 1) _ (by rw [List.length_set]; exact hlen) (by omega) (by omega)
      ?_ l hl1 (by omega)
    intro l2 hl2a hl2b
    rcases eq_or_ne l2 (len + 1) with rfl | hne
    · rw [getD_set_self _ _ _ (by omega), hinv len hlen1 (Nat.le_refl _),
        hcnt len hlen1 (by omega), png_offs_start_succ_eq ls len hlen1]
    · rw [getD_set_ne _ _ _ _ (Ne.symm hne)]
      exact hinv l2 hl2a (by omega)

theorem png_huffman_build_none_cases (lengths : List Nat) :
    png_huffman_build lengths = none ↔
      (png_count_lengths lengths (List.replicate 16 0) = none ∨
        ∃ cnt, png_count_lengths lengths (List.replicate 16 0) = some cnt ∧
          png_kraft_go cnt 1 1 15 = none) := by
  unfold png_huffman_build
  split
  · rename_i heq
    exact iff_of_true rfl (Or.inl heq)
  · rename_i cnt heq
    split
    · rename_i hk
      exact iff_of_true rfl (Or.inr ⟨cnt, heq, hk⟩)
    · rename_i left hk
      apply iff_of_false
      · intro hcontra
        exact Option.noConfusion hcontra
      · rintro (hcn | ⟨cnt2, hc2, hk2⟩)
        · rw [heq] at hcn
          exact Option.noConfusion hcn
        · rw [heq] at hc2
          obtain rfl : cnt = cnt2 := Option.some_inj.mp hc2
          rw [hk] at hk2
          exact Option.noConfusion hk2

theorem png_huffman_build_some_inv (lengths : List Nat) (hf : png_huffman)
    (h : png_huffman_build lengths = some hf) :
    ∃ cnt, png_count_lengths lengths (List.replicate 16 0) = some cnt ∧
      hf.count = cnt ∧
      hf.symbol = (png_place_go lengths 0
        (png_offs_go cnt (List.replicate 16 0) 1 14) (List.replicate 288 0)).2 := by
  simp only [png_huffman_build] at h
  repeat' split at h
  · exact Option.noConfusion h
  · exact Option.noConfusion h
  · have hx := Option.some_inj.mp h
    refine ⟨_, by assumption, ?_, ?_⟩
    · rw [← hx]
    · rw [← hx]

/-- C8: png_huffman_build fails exactly when some code length exceeds 15 or the
running Kraft counter goes negative at some length (over-subscription); every
other code set, incomplete ones included, is accepted, and an accepted build
places the symbols of each code length contiguously from that length's start
offset, in increasing symbol order. -/
theorem c8_huffman_build (lengths : List Nat) (h288 : lengths.length ≤ 288) :
    (png_huffman_build lengths = none ↔
      ((∃ i, i < lengths.length ∧ 15 < lengths.getD i 0) ∨
       (∃ len, 1 ≤ len ∧ len ≤ 15 ∧ png_kraft_left_spec lengths len < 0))) ∧
    (∀ hf, png_huffman_build lengths = some hf →
      ∀ len j, 1 ≤ len → len ≤ 15 → j < lengths.count len →
        hf.symbol.getD (png_offs_start lengths len + j) 0 =
          ((List.range lengths.length).filter
            (fun i => lengths.getD i 0 = len)).getD j 0) := by
  have hmem_iff : (∃ x ∈ lengths, 15 < x) ↔
      (∃ i, i < lengths.length ∧ 15 < lengths.getD i 0) := by
    constructor
    · rintro ⟨x, hx, h15⟩
      obtain ⟨i, hi, hxi⟩ := List.mem_iff_getElem.mp hx
      exact ⟨i, hi, by rw [List.getD_eq_getElem _ _ hi, hxi]; exact h15⟩
    · rintro ⟨i, hi, h15⟩
      refine ⟨lengths.getD i 0, ?_, h15⟩
      rw [List.getD_eq_getElem _ _ hi]
      exact List.getElem_mem hi
  constructor
  · rcases hc : png_count_lengths lengths (List.replicate 16 0) with _ | cnt
    · have hbad : ∃ x ∈ lengths, 15 < x := (png_count_lengths_none_iff lengths _).mp hc
      rw [png_huffman_build_none_cases]
      exact iff_of_true (Or.inl hc) (Or.inl (hmem_iff.mp hbad))
    · have hnobad : ¬∃ x ∈ lengths, 15 < x := by
        intro hbad
        have := (png_count_lengths_none_iff lengths (List.replicate 16 0)).mpr hbad
        rw [hc] at this
        exact Option.noConfusion this
      obtain ⟨hcl, hcval⟩ := png_count_lengths_some lengths _ cnt (by simp) hc
      have hcnt : ∀ l, 1 ≤ l → l ≤ 15 → cnt.getD l 0 = lengths.count l := by
        intro l _ hl
        rw [hcval l hl, getD_replicate_zero]
        omega
      have hkraft := png_kraft_go_none_iff cnt lengths hcnt 15 0 (by omega)
      rw [png_huffman_build_none_cases]
      constructor
      · rintro (hcn | ⟨cnt2, hc2, hk2⟩)
        · rw [hc] at hcn
          exact Option.noConfusion hcn
        · rw [hc] at hc2
          obtain rfl : cnt = cnt2 := Option.some_inj.mp hc2
          refine Or.inr ?_
          have := hkraft.mp hk2
          obtain ⟨l, h1, h2, h3⟩ := this
          exact ⟨l, by omega, by omega, h3⟩
      · rintro (hbadidx | ⟨len, hl1, hl15, hneg⟩)
        · exact absurd (hmem_iff.mpr hbadidx) hnobad
        · refine Or.inr ⟨cnt, hc, ?_⟩
          exact hkraft.mpr ⟨len, by omega, by omega, hneg⟩
  · intro hf hsome len j hl1 hl15 hj
    obtain ⟨cnt, hc, hfcnt, hfsym⟩ := png_huffman_build_some_inv lengths hf hsome
    have hnobad : ¬∃ x ∈ lengths, 15 < x := by
      intro hbad
      have := (png_count_lengths_none_iff lengths (List.replicate 16 0)).mpr hbad
      rw [hc] at this
      exact Option.noConfusion this
    have hall : ∀ x ∈ lengths, x ≤ 15 := by
      intro x hx
      by_contra hgt
      exact hnobad ⟨x, hx, by omega⟩
    obtain ⟨hcl, hcval⟩ := png_count_lengths_some lengths _ cnt (by simp) hc
    have hcnt : ∀ l, 1 ≤ l → l ≤ 15 → cnt.getD l 0 = lengths.count l := by
      intro l _ hl
      rw [hcval l hl, getD_replicate_zero]
      omega
    have hoffs : ∀ l, 1 ≤ l → l ≤ 15 →
        (png_offs_go cnt (List.replicate 16 0) 1 14).getD l 0 = png_offs_start lengths l := by
      intro l h1 h15
      refine png_offs_go_spec cnt lengths hcnt 14 1 _ (by simp) (by omega) (by omega)
        ?_ l h1 (by omega)
      intro l2 h2a h2b
      have : l2 = 1 := by omega
      subst this
      rw [getD_replicate_zero]
      show (0 : Nat) = png_offs_start lengths 0 + _
      simp [png_offs_start]
    rw [hfsym]
    have hplace := png_place_go_spec lengths hall h288 lengths []
      (png_offs_go cnt (List.replicate 16 0) 1 14) (List.replicate 288 0)
      rfl
      (by rw [png_offs_go_length]; simp)
      (by simp)
      (by intro l ha hb
          rw [hoffs l ha hb, List.count_nil]
          omega)
      (by intro l j2 _ _ hj2
          rw [List.count_nil] at hj2
          omega)
      len j hl1 hl15 hj
    exact hplace


/-- Witness for C8: the length-16 code is rejected, and in the accepted build
for lengths 1, 2, 2 the second length-2 symbol sits right after the first. -/
theorem c8_huffman_build_witness :
    png_huffman_build [16] = none ∧
    (png_huffman.mk [0, 1, 2, 0, 0, 0, 0, 0, 0, 0, 0, 0, 0, 0, 0, 0]
        (0 :: 1 :: 2 :: List.replicate 285 0)).symbol.getD
          (png_offs_start [1, 2, 2] 2 + 1) 0 =
      ((List.range ([1, 2, 2] : List Nat).length).filter
        (fun i => ([1, 2, 2] : List Nat).getD i 0 = 2)).getD 1 0 :=
  ⟨(c8_huffman_build [16] (by decide)).1.mpr (Or.inl ⟨0, by decide, by decide⟩),
   (c8_huffman_build [1, 2, 2] (by decide)).2
     (png_huffman.mk [0, 1, 2, 0, 0, 0, 0, 0, 0, 0, 0, 0, 0, 0, 0, 0]
       (0 :: 1 :: 2 :: List.replicate 285 0)) (by decide) 2 1 (by decide) (by decide)
     (by decide)⟩

/-! ### C1: round trip -/

/-- (a <<< k) ||| b is a * 2^k + b when b fits in k bits. -/
theorem lor_shift_add (a b k : Nat) (hb : b < 2 ^ k) : (a <<< k) ||| b = a * 2 ^ k + b := by
  apply Nat.eq_of_testBit_eq
  intro i
  rw [Nat.testBit_lor, Nat.testBit_shiftLeft, Nat.mul_comm a, Nat.testBit_mul_pow_two_add a hb i]
  rcases Nat.lt_or_ge i k with h | h
  · rw [if_pos h]
    have hnot : ¬ (i ≥ k) := by omega
    simp [hnot]
  · rw [if_neg (by omega)]
    have hbi : b.testBit i = false :=
      Nat.testBit_lt_two_pow (Nat.lt_of_lt_of_le hb (Nat.pow_le_pow_right (by omega) h))
    simp [hbi, h]

/-- XOR against an all-ones mask is subtraction from the mask. -/
theorem xor_two_pow_sub_one (n : Nat) : ∀ x : Nat, x < 2 ^ n → x ^^^ (2 ^ n - 1) = 2 ^ n - 1 - x := by
  induction n with
  | zero =>
    intro x hx
    have h1 : (2 : Nat) ^ 0 = 1 := by norm_num
    have hx0 : x = 0 := by omega
    subst hx0; rfl
  | succ n ih =>
    intro x hx
    have h2 : (2 : Nat) ^ (n + 1) = 2 * 2 ^ n := by rw [pow_succ]; omega
    have hpos : 0 < (2 : Nat) ^ n := Nat.two_pow_pos n
    have hdiv : (x ^^^ (2 ^ (n + 1) - 1)) / 2 = 2 ^ n - 1 - x / 2 := by
      rw [Nat.xor_div_two]
      have hm : (2 ^ (n + 1) - 1) / 2 = 2 ^ n - 1 := by omega
      rw [hm]
      exact ih (x / 2) (by omega)
    have hmod : (x ^^^ (2 ^ (n + 1) - 1)) % 2 = 1 - x % 2 := by
      rw [Nat.xor_mod_two_eq]
      omega
    omega

/-- The stored-block NLEN check: xor with 0xffff on a 16-bit value. -/
theorem xor_ffff (x : Nat) (hx : x < 65536) : x ^^^ 65535 = 65535 - x := by
  have h := xor_two_pow_sub_one 16 x (by norm_num; omega)
  norm_num at h
  exact h

/-- Reassembling a 32-bit value from its four big-endian bytes. -/
theorem be32_fold (x : Nat) (hx : x < 2 ^ 32) :
    ((x >>> 24 % 256) <<< 24) ||| ((x >>> 16 % 256) <<< 16) ||| ((x >>> 8 % 256) <<< 8)
      ||| x % 256 = x := by
  rw [Nat.lor_assoc, Nat.lor_assoc]
  rw [lor_shift_add (x >>> 8 % 256) (x % 256) 8 (by norm_num; omega)]
  rw [lor_shift_add (x >>> 16 % 256) _ 16
    (by have h1 : x >>> 8 % 256 < 256 := by omega
        have h2 : x % 256 < 256 := by omega
        norm_num; omega)]
  rw [lor_shift_add (x >>> 24 % 256) _ 24
    (by have h1 : x >>> 16 % 256 < 256 := by omega
        have h2 : x >>> 8 % 256 < 256 := by omega
        have h3 : x % 256 < 256 := by omega
        norm_num; omega)]
  rw [Nat.shiftRight_eq_div_pow, Nat.shiftRight_eq_div_pow, Nat.shiftRight_eq_div_pow]
  norm_num
  omega

/-- png_read_be32_mem on an explicit 4-byte prefix. -/
theorem png_read_be32_mem_cons (a b c d : Nat) (r : List Nat) :
    png_read_be32_mem (a :: b :: c :: d :: r)
      = (a <<< 24) ||| (b <<< 16) ||| (c <<< 8) ||| d := rfl

/-- Reading back a big-endian 32-bit field written by png_be32_bytes. -/
theorem png_read_be32_mem_bytes (x : Nat) (r : List Nat) (hx : x < 2 ^ 32) :
    png_read_be32_mem (png_be32_bytes x ++ r) = x := by
  rw [show png_be32_bytes x ++ r
      = x >>> 24 % 256 :: x >>> 16 % 256 :: x >>> 8 % 256 :: x % 256 :: r from rfl]
  rw [png_read_be32_mem_cons]
  exact be32_fold x hx

/-- png_read_be32_mem only looks at the first four bytes. -/
theorem png_read_be32_mem_append (p r : List Nat) (hp : 4 ≤ p.length) :
    png_read_be32_mem (p ++ r) = png_read_be32_mem p := by
  rcases p with _ | ⟨a, _ | ⟨b, _ | ⟨c, _ | ⟨d, t⟩⟩⟩⟩
  · simp at hp
  · simp at hp
  · simp at hp
  · simp at hp
  · rfl

/-- Both Adler-32 accumulators stay below the modulus 65521 along the fold. -/
theorem png_adler32_fold_bound (data : List Nat) : ∀ p : Nat × Nat, p.1 < 65521 → p.2 < 65521 →
    (data.foldl
      (fun (p : Nat × Nat) x => ((p.1 + x) % 65521, (p.2 + (p.1 + x) % 65521) % 65521)) p).1
        < 65521 ∧
    (data.foldl
      (fun (p : Nat × Nat) x => ((p.1 + x) % 65521, (p.2 + (p.1 + x) % 65521) % 65521)) p).2
        < 65521 := by
  induction data with
  | nil => intro p h1 h2; exact ⟨h1, h2⟩
  | cons x t ih =>
    intro p h1 h2
    simp only [List.foldl_cons]
    exact ih _ (Nat.mod_lt _ (by norm_num)) (Nat.mod_lt _ (by norm_num))

/-- The Adler-32 checksum fits in 32 bits. -/
theorem png_adler32_lt (data : List Nat) : png_adler32 data < 2 ^ 32 := by
  have h := png_adler32_fold_bound data (1, 0) (by norm_num) (by norm_num)
  simp only [png_adler32]
  rw [lor_shift_add _ _ 16 (Nat.lt_of_lt_of_le h.1 (by norm_num))]
  have h1 := h.1
  have h2 := h.2
  rw [show (2 : Nat) ^ 16 = 65536 from by norm_num, show (2 : Nat) ^ 32 = 4294967296 from by
    norm_num]
  omega

/-- A refill request that is already satisfied leaves the bit reader unchanged. -/
theorem png_fill_go_stop (bs : png_bitstream) (n fuel : Nat)
    (h : ¬(bs.bitcount < n ∧ bs.bytepos < bs.data.length)) :
    png_fill_go bs n fuel = bs := by
  cases fuel with
  | zero => rfl
  | succ f => simp only [png_fill_go, if_neg h]

/-- One iteration of the refill loop packs the next byte above the buffered bits. -/
theorem png_fill_go_step (bs : png_bitstream) (n f : Nat)
    (h : bs.bitcount < n ∧ bs.bytepos < bs.data.length) :
    png_fill_go bs n (f + 1)
      = png_fill_go
          { bs with bitbuf := bs.bitbuf ||| (bs.data.getD bs.bytepos 0 <<< bs.bitcount),
                    bitcount := bs.bitcount + 8, bytepos := bs.bytepos + 1 } n f := by
  simp only [png_fill_go, if_pos h]

/-- Reading bits that are already buffered just shifts the register. -/
theorem png_get_of_le (bs : png_bitstream) (n : Nat) (hn : n ≠ 0) (hc : n ≤ bs.bitcount) :
    png_bitstream_get bs n
      = some (bs.bitbuf &&& ((1 <<< n) - 1),
          { bs with bitbuf := bs.bitbuf >>> n, bitcount := bs.bitcount - n }) := by
  simp only [png_bitstream_get, png_bitstream_fill]
  rw [png_fill_go_stop _ _ _ (by omega), if_neg hn, if_pos hc]

/-- Reading one bit from an empty register on a fresh byte boundary. -/
theorem png_get1_fresh (B : List Nat) (p v : Nat) (hp : p < B.length)
    (hv : B.getD p 0 = v) (hv1 : v ≤ 1) :
    png_bitstream_get ⟨B, p, 0, 0⟩ 1 = some (v, ⟨B, p + 1, 0, 7⟩) := by
  have hfill : png_fill_go ⟨B, p, 0, 0⟩ 1 1 = ⟨B, p + 1, v, 8⟩ := by
    rw [png_fill_go_step _ _ _ ⟨show (0 : Nat) < 1 from by decide, show p < B.length from hp⟩]
    show (⟨B, p + 1, 0 ||| B.getD p 0 <<< 0, 8⟩ : png_bitstream) = ⟨B, p + 1, v, 8⟩
    rw [hv, Nat.shiftLeft_zero, Nat.zero_or]
  simp only [png_bitstream_get, png_bitstream_fill]
  rw [hfill]
  rw [if_neg (by decide : ¬ (1 = 0)), if_pos (show (8 : Nat) ≥ 1 from by decide)]
  interval_cases v
  · simp
  · simp

/-- Byte alignment discards a zero-valued partial register. -/
theorem png_align_reg_zero (B : List Nat) (p cnt : Nat) (hc : cnt < 8) :
    png_bitstream_align ⟨B, p, 0, cnt⟩ = some ⟨B, p, 0, 0⟩ := by
  simp only [png_bitstream_align]
  rcases Nat.eq_zero_or_pos cnt with h0 | hpos
  · subst h0; rfl
  · have hskip : cnt % 8 = cnt := Nat.mod_eq_of_lt hc
    rw [hskip, if_neg (by omega)]
    rw [png_get_of_le ⟨B, p, 0, cnt⟩ cnt (by omega) (by exact Nat.le_refl cnt)]
    simp [Nat.zero_shiftRight]

/-- Reading 16 bits from an empty register at a byte boundary is a little-endian
two-byte read. -/
theorem png_get16_fresh (B : List Nat) (p a b : Nat) (hp : p + 1 < B.length)
    (ha : B.getD p 0 = a) (hb : B.getD (p + 1) 0 = b) (ha2 : a < 256) (hb2 : b < 256) :
    png_bitstream_get ⟨B, p, 0, 0⟩ 16 = some (b * 256 + a, ⟨B, p + 2, 0, 0⟩) := by
  have hfill : png_fill_go ⟨B, p, 0, 0⟩ 16 16 = ⟨B, p + 2, b * 256 + a, 16⟩ := by
    rw [png_fill_go_step _ _ _ ⟨show (0 : Nat) < 16 from by decide, show p < B.length from by
      omega⟩]
    rw [png_fill_go_step _ _ _ ⟨show (8 : Nat) < 16 from by decide,
      show p + 1 < B.length from hp⟩]
    rw [png_fill_go_stop _ _ _ (show ¬ ((16 : Nat) < 16 ∧ p + 2 < B.length) from by simp)]
    show (⟨B, p + 2, (0 ||| B.getD p 0 <<< 0) ||| B.getD (p + 1) 0 <<< 8, 16⟩ : png_bitstream)
      = ⟨B, p + 2, b * 256 + a, 16⟩
    rw [ha, hb, Nat.shiftLeft_zero, Nat.zero_or, Nat.lor_comm, lor_shift_add b a 8 ha2]
    norm_num
  simp only [png_bitstream_get, png_bitstream_fill]
  rw [hfill]
  rw [if_neg (by decide : ¬ (16 = 0)), if_pos (show (16 : Nat) ≥ 16 from by decide)]
  have hlt : b * 256 + a < 65536 := by omega
  have hand : (b * 256 + a) &&& ((1 <<< 16) - 1) = b * 256 + a := by
    rw [show (1 : Nat) <<< 16 = 2 ^ 16 by decide]
    rw [Nat.and_pow_two_sub_one_eq_mod]
    omega
  have hshift : (b * 256 + a) >>> 16 = 0 := by
    rw [Nat.shiftRight_eq_div_pow]
    norm_num
    omega
  rw [hand, hshift]
  rfl

/-- A byte-aligned bulk read with an empty register is a list slice. -/
theorem png_read_bytes_aligned (B : List Nat) (p len : Nat) (h : p + len ≤ B.length) :
    png_bitstream_read_bytes ⟨B, p, 0, 0⟩ len
      = some ((B.drop p).take len, ⟨B, p + len, 0, 0⟩) := by
  simp only [png_bitstream_read_bytes]
  rw [if_pos trivial, if_neg (by omega)]

/-- getD through drop. -/
theorem getD_drop_eq (B : List Nat) (p i : Nat) :
    B.getD (p + i) 0 = (B.drop p).getD i 0 := by
  simp [List.getD_eq_getD_get?, List.get?_drop]

/-- One stored block peeled off the front of the encoder's block loop. -/
theorem png_deflate_blocks_go_succ (src : List Nat) (f : Nat) (h : ¬ src.length = 0) :
    png_deflate_blocks_go src (f + 1)
      = [if src.length ≤ 65535 then 1 else 0,
         (if src.length > 65535 then 65535 else src.length) % 256,
         (if src.length > 65535 then 65535 else src.length) / 256 % 256,
         c_not64 (if src.length > 65535 then 65535 else src.length) % 256,
         c_not64 (if src.length > 65535 then 65535 else src.length) / 256 % 256]
        ++ src.take (if src.length > 65535 then 65535 else src.length)
        ++ png_deflate_blocks_go (src.drop (if src.length > 65535 then 65535 else src.length))
            f := by
  rw [show png_deflate_blocks_go src (f + 1)
      = if src.length = 0 then ([] : List Nat)
        else
          [if src.length ≤ 65535 then 1 else 0,
           (if src.length > 65535 then 65535 else src.length) % 256,
           (if src.length > 65535 then 65535 else src.length) / 256 % 256,
           c_not64 (if src.length > 65535 then 65535 else src.length) % 256,
           c_not64 (if src.length > 65535 then 65535 else src.length) / 256 % 256]
            ++ src.take (if src.length > 65535 then 65535 else src.length)
            ++ png_deflate_blocks_go
                (src.drop (if src.length > 65535 then 65535 else src.length)) f
      from rfl]
  rw [if_neg h]

/-- The encoder's block loop does not depend on the fuel once it covers the length. -/
theorem png_deflate_blocks_go_fuel (f1 : Nat) : ∀ (src : List Nat) (f2 : Nat),
    src.length ≤ f1 → src.length ≤ f2 →
    png_deflate_blocks_go src f1 = png_deflate_blocks_go src f2 := by
  induction f1 with
  | zero =>
    intro src f2 h1 h2
    have h0 : src.length = 0 := by omega
    cases f2 with
    | zero => rfl
    | succ g => simp only [png_deflate_blocks_go, if_pos h0]
  | succ f ih =>
    intro src f2 h1 h2
    rcases Nat.eq_zero_or_pos src.length with h0 | hpos
    · cases f2 with
      | zero => simp only [png_deflate_blocks_go, if_pos h0]
      | succ g => simp only [png_deflate_blocks_go, if_pos h0]
    · cases f2 with
      | zero => omega
      | succ g =>
        rw [png_deflate_blocks_go_succ src f (by omega),
          png_deflate_blocks_go_succ src g (by omega)]
        congr 1
        have hbl : 1 ≤ (if src.length > 65535 then 65535 else src.length) := by
          split <;> omega
        have hlen : (src.drop (if src.length > 65535 then 65535 else src.length)).length
            = src.length - (if src.length > 65535 then 65535 else src.length) :=
          List.length_drop _ _
        exact ih _ g (by omega) (by omega)

/-- Unfolding one stored block from the front of the encoded stream. -/
theorem png_deflate_blocks_eq (src : List Nat) (h : 1 ≤ src.length) :
    png_deflate_blocks src
      = [if src.length ≤ 65535 then 1 else 0,
         (if src.length > 65535 then 65535 else src.length) % 256,
         (if src.length > 65535 then 65535 else src.length) / 256 % 256,
         c_not64 (if src.length > 65535 then 65535 else src.length) % 256,
         c_not64 (if src.length > 65535 then 65535 else src.length) / 256 % 256]
        ++ src.take (if src.length > 65535 then 65535 else src.length)
        ++ png_deflate_blocks
            (src.drop (if src.length > 65535 then 65535 else src.length)) := by
  obtain ⟨m, hm⟩ : ∃ m, src.length = m + 1 := ⟨src.length - 1, by omega⟩
  show png_deflate_blocks_go src src.length = _
  conv_lhs => rw [hm]
  rw [png_deflate_blocks_go_succ src m (by omega)]
  congr 1
  have hbl : 1 ≤ (if src.length > 65535 then 65535 else src.length) := by
    split <;> omega
  have hlen : (src.drop (if src.length > 65535 then 65535 else src.length)).length
      = src.length - (if src.length > 65535 then 65535 else src.length) :=
    List.length_drop _ _
  exact png_deflate_blocks_go_fuel m _ _ (by omega) (by omega)

/-- Upper bound on the stored-block stream length: 5 bytes of header per block. -/
theorem png_deflate_blocks_go_len_le (fuel : Nat) : ∀ src : List Nat,
    (png_deflate_blocks_go src fuel).length
      ≤ src.length + 5 * ((src.length + 65534) / 65535) := by
  induction fuel with
  | zero =>
    intro src
    simp only [png_deflate_blocks_go]
    split <;> simp
  | succ f ih =>
    intro src
    rcases Nat.eq_zero_or_pos src.length with h0 | hpos
    · simp only [png_deflate_blocks_go, if_pos h0]
      simp
    · rw [png_deflate_blocks_go_succ src f (by omega)]
      obtain ⟨bl, hbleq⟩ : ∃ bl, (if src.length > 65535 then 65535 else src.length) = bl :=
        ⟨_, rfl⟩
      rw [hbleq]
      have hcase : (65535 < src.length ∧ bl = 65535) ∨ (src.length ≤ 65535 ∧ bl = src.length) := by
        rw [← hbleq]
        rcases lt_or_le 65535 src.length with hb | hb
        · exact Or.inl ⟨hb, if_pos (by omega)⟩
        · exact Or.inr ⟨hb, if_neg (by omega)⟩
      have hd := ih (src.drop bl)
      rw [List.length_drop] at hd
      simp only [List.length_append, List.length_cons, List.length_nil, List.length_take]
      rw [Nat.min_eq_left (by omega)]
      rcases hcase with ⟨hb, rfl⟩ | ⟨hb, hbl⟩ <;> omega

/-- The stored-block stream is at least as long as its source. -/
theorem png_deflate_blocks_go_len_ge (fuel : Nat) : ∀ src : List Nat, src.length ≤ fuel →
    src.length ≤ (png_deflate_blocks_go src fuel).length := by
  induction fuel with
  | zero =>
    intro src h
    omega
  | succ f ih =>
    intro src h
    rcases Nat.eq_zero_or_pos src.length with h0 | hpos
    · omega
    · rw [png_deflate_blocks_go_succ src f (by omega)]
      have hbl : 1 ≤ (if src.length > 65535 then 65535 else src.length) := by
        split <;> omega
      have hble : (if src.length > 65535 then 65535 else src.length) ≤ src.length := by
        split <;> omega
      have hd := ih (src.drop (if src.length > 65535 then 65535 else src.length))
        (by rw [List.length_drop]; omega)
      rw [List.length_drop] at hd
      simp only [List.length_append, List.length_cons, List.length_nil, List.length_take]
      omega

/-- Inflating the stored-block encoding of src appends exactly src to the output. -/
theorem png_inflate_blocks_stored (fuel : Nat) : ∀ (src B out : List Nat) (p expected : Nat),
    1 ≤ src.length → src.length ≤ fuel →
    B.drop p = png_deflate_blocks src →
    out.length + src.length ≤ expected →
    png_inflate_blocks ⟨B, p, 0, 0⟩ out expected fuel = some (out ++ src) := by
  induction fuel with
  | zero => intro src B out p expected h1 h2 hdrop hexp; omega
  | succ f ih =>
    intro src B out p expected h1 h2 hdrop hexp
    rw [png_deflate_blocks_eq src (by omega)] at hdrop
    obtain ⟨bl, hbleq⟩ : ∃ bl, (if src.length > 65535 then 65535 else src.length) = bl :=
      ⟨_, rfl⟩
    obtain ⟨fin, hfineq⟩ : ∃ fin, (if src.length ≤ 65535 then 1 else 0) = fin := ⟨_, rfl⟩
    rw [hbleq, hfineq] at hdrop
    have hcase : (fin = 1 ∧ src.length ≤ 65535 ∧ bl = src.length)
        ∨ (fin = 0 ∧ 65535 < src.length ∧ bl = 65535) := by
      rcases le_or_lt src.length 65535 with hc | hc
      · exact Or.inl ⟨by rw [← hfineq, if_pos hc], hc, by rw [← hbleq, if_neg (by omega)]⟩
      · exact Or.inr ⟨by rw [← hfineq, if_neg (by omega)], hc,
          by rw [← hbleq, if_pos (by omega)]⟩
    have hbl1 : 1 ≤ bl := by rcases hcase with ⟨_, _, hb⟩ | ⟨_, _, hb⟩ <;> omega
    have hble : bl ≤ src.length := by rcases hcase with ⟨_, _, hb⟩ | ⟨_, _, hb⟩ <;> omega
    have hbl65 : bl ≤ 65535 := by rcases hcase with ⟨_, _, hb⟩ | ⟨_, _, hb⟩ <;> omega
    have hfin1 : fin ≤ 1 := by rcases hcase with ⟨hb, _, _⟩ | ⟨hb, _, _⟩ <;> omega
    have hcons : B.drop p
        = fin :: bl % 256 :: bl / 256 % 256 :: c_not64 bl % 256 :: c_not64 bl / 256 % 256 ::
          (src.take bl ++ png_deflate_blocks (src.drop bl)) := by
      rw [hdrop]; simp [List.append_assoc]
    have htklen : (src.take bl).length = bl := by
      rw [List.length_take]; omega
    have hlen : B.length - p
        = 5 + (bl + (png_deflate_blocks (src.drop bl)).length) := by
      have hc := congrArg List.length hcons
      rw [List.length_drop] at hc
      simp [List.length_append, htklen] at hc
      omega
    have hplen : p + 5 + bl ≤ B.length := by omega
    have hB0 : B.getD (p + 0) 0 = fin := by rw [getD_drop_eq, hcons]; rfl
    have hB1 : B.getD (p + 1) 0 = bl % 256 := by rw [getD_drop_eq, hcons]; rfl
    have hB2 : B.getD (p + 2) 0 = bl / 256 % 256 := by rw [getD_drop_eq, hcons]; rfl
    have hB3 : B.getD (p + 3) 0 = c_not64 bl % 256 := by rw [getD_drop_eq, hcons]; rfl
    have hB4 : B.getD (p + 4) 0 = c_not64 bl / 256 % 256 := by rw [getD_drop_eq, hcons]; rfl
    simp only [png_inflate_blocks]
    rw [png_get1_fresh B p fin (by omega) hB0 hfin1]
    simp only []
    rw [png_get_of_le ⟨B, p + 1, 0, 7⟩ 2 (by omega) (show (2 : Nat) ≤ 7 from by omega)]
    simp only []
    rw [show ((0 : Nat) &&& (1 <<< 2 - 1)) = 0 from by decide,
      show ((0 : Nat) >>> 2) = 0 from by decide, show (7 : Nat) - 2 = 5 from by decide]
    rw [if_pos rfl]
    rw [png_align_reg_zero B (p + 1) 5 (by omega)]
    simp only []
    rw [png_get16_fresh B (p + 1) (bl % 256) (bl / 256 % 256) (by omega) hB1 hB2
      (by omega) (by omega)]
    simp only []
    rw [show bl / 256 % 256 * 256 + bl % 256 = bl from by omega]
    rw [png_get16_fresh B (p + 1 + 2) (c_not64 bl % 256) (c_not64 bl / 256 % 256) (by omega)
      hB3 hB4 (by omega) (by omega)]
    simp only []
    rw [show c_not64 bl / 256 % 256 * 256 + c_not64 bl % 256 = 65535 - bl from by
      simp only [c_not64]
      omega]
    rw [xor_ffff bl (by omega)]
    rw [if_neg (show ¬ (65535 - bl ≠ 65535 - bl) from by omega)]
    rw [if_neg (show ¬ (out.length + bl > expected) from by omega)]
    rw [png_read_bytes_aligned B (p + 1 + 2 + 2) bl (by omega)]
    simp only []
    have hbytes : (B.drop (p + 1 + 2 + 2)).take bl = src.take bl := by
      have hdd : B.drop (p + 1 + 2 + 2)
          = src.take bl ++ png_deflate_blocks (src.drop bl) := by
        rw [show p + 1 + 2 + 2 = p + 5 from by omega,
          show B.drop (p + 5) = (B.drop p).drop 5 from (List.drop_drop 5 p B).symm]
        rw [hcons]
        rfl
      rw [hdd, List.take_left' htklen]
    rw [hbytes]
    rcases hcase with ⟨hf1, hle, hbl'⟩ | ⟨hf0, hgt, hbl'⟩
    · subst hf1
      rw [if_pos (show (1 : Nat) ≠ 0 from by omega)]
      rw [hbl', List.take_length]
    · subst hf0
      rw [if_neg (show ¬ ((0 : Nat) ≠ 0) from by omega)]
      rw [show p + 1 + 2 + 2 + bl = p + 5 + bl from by omega]
      rw [ih (src.drop bl) B (out ++ src.take bl) (p + 5 + bl) expected
        (by rw [List.length_drop]; omega)
        (by rw [List.length_drop]; omega)
        (by
          have hd2 : B.drop (p + 5 + bl) = ((B.drop p).drop 5).drop bl := by
            rw [List.drop_drop, List.drop_drop]
            congr 1
            omega
          rw [hd2, hcons]
          exact List.drop_left' htklen)
        (by simp only [List.length_append, List.length_drop, htklen]; omega)]
      rw [List.append_assoc, List.take_append_drop]

/-- The zlib store-mode round trip: inflating png_deflate_store's output at the
source length succeeds and returns the source bytes. -/
theorem png_inflate_zlib_deflate_store (src : List Nat) (h1 : 1 ≤ src.length) :
    png_inflate_zlib (png_deflate_store src) src.length = some src := by
  have hBge : src.length ≤ (png_deflate_blocks src).length :=
    png_deflate_blocks_go_len_ge src.length src (Nat.le_refl _)
  obtain ⟨B, hB⟩ : ∃ B, png_deflate_blocks src = B := ⟨_, rfl⟩
  obtain ⟨ck, hck⟩ : ∃ ck, png_adler32 src = ck := ⟨_, rfl⟩
  have hcklt : ck < 2 ^ 32 := hck ▸ png_adler32_lt src
  rw [hB] at hBge
  have hshape : png_deflate_store src
      = ([120, 1] ++ B) ++ [ck >>> 24 % 256, ck >>> 16 % 256, ck >>> 8 % 256, ck % 256] := by
    simp only [png_deflate_store, hB, hck]
  rw [hshape]
  obtain ⟨A, hA⟩ : ∃ A, [ck >>> 24 % 256, ck >>> 16 % 256, ck >>> 8 % 256, ck % 256] = A :=
    ⟨_, rfl⟩
  rw [hA]
  simp only [png_inflate_zlib]
  have hlen : (([120, 1] ++ B) ++ A).length = B.length + 6 := by
    rw [← hA]
    simp [List.length_append]
  rw [hlen]
  rw [if_neg (show ¬ (B.length + 6 < 6) from by omega)]
  have hcmf : (([120, 1] ++ B) ++ A).getD 0 0 = 120 := by rfl
  have hflg : (([120, 1] ++ B) ++ A).getD 1 0 = 1 := by rfl
  rw [hcmf, hflg]
  rw [if_neg (by decide : ¬ ((120 : Nat) &&& 15 ≠ 8))]
  rw [if_neg (by decide : ¬ ((((120 : Nat) <<< 8) + 1) % 31 ≠ 0))]
  rw [if_neg (show ¬ ((1 : Nat) &&& 32 ≠ 0 ∧ B.length + 6 < 10) from
      fun hc => absurd hc.1 (by decide))]
  rw [if_neg (by decide : ¬ ((1 : Nat) &&& 32 ≠ 0))]
  rw [if_neg (show ¬ (B.length + 6 < 2 + 4) from by omega)]
  rw [show B.length + 6 - 2 - 4 = B.length from by omega]
  have hdrop2 : (([120, 1] ++ B) ++ A).drop 2 = B ++ A := by rfl
  rw [hdrop2, List.take_left' rfl]
  rw [png_inflate_blocks_stored (8 * (B.length + 6) + 64) src B [] 0 src.length h1
    (by omega)
    (by rw [List.drop_zero]; exact hB.symm)
    (by simp)]
  simp only []
  rw [List.nil_append]
  rw [if_neg (show ¬ (src.length ≠ src.length) from by omega)]
  have hg0 : (([120, 1] ++ B) ++ A).getD (B.length + 6 - 4) 0 = ck >>> 24 % 256 := by
    rw [List.getD_append_right _ _ _ _ (by simp [List.length_append]; try omega)]
    rw [show B.length + 6 - 4 - ([120, 1] ++ B : List Nat).length = 0 from by
      simp [List.length_append]]
    rw [← hA]
    rfl
  have hg1 : (([120, 1] ++ B) ++ A).getD (B.length + 6 - 3) 0 = ck >>> 16 % 256 := by
    rw [List.getD_append_right _ _ _ _ (by simp [List.length_append]; try omega)]
    rw [show B.length + 6 - 3 - ([120, 1] ++ B : List Nat).length = 1 from by
      simp [List.length_append]]
    rw [← hA]
    rfl
  have hg2 : (([120, 1] ++ B) ++ A).getD (B.length + 6 - 2) 0 = ck >>> 8 % 256 := by
    rw [List.getD_append_right _ _ _ _ (by simp [List.length_append]; try omega)]
    rw [show B.length + 6 - 2 - ([120, 1] ++ B : List Nat).length = 2 from by
      simp [List.length_append]]
    rw [← hA]
    rfl
  have hg3 : (([120, 1] ++ B) ++ A).getD (B.length + 6 - 1) 0 = ck % 256 := by
    rw [List.getD_append_right _ _ _ _ (by simp [List.length_append]; try omega)]
    rw [show B.length + 6 - 1 - ([120, 1] ++ B : List Nat).length = 3 from by
      simp [List.length_append]]
    rw [← hA]
    rfl
  rw [hg0, hg1, hg2, hg3, be32_fold ck hcklt]
  rw [hck]
  rw [if_neg (show ¬ (ck ≠ ck) from by omega)]

/-- The filtered row stream is h rows of 1 + rowlen bytes. -/
theorem png_raw_rows_length (rl : Nat) (h : Nat) : ∀ data : List Nat,
    h * rl ≤ data.length →
    (png_raw_rows data h rl).length = h * (1 + rl) := by
  induction h with
  | zero => intro data hle; simp [png_raw_rows]
  | succ hh ih =>
    intro data hle
    have hmul : (hh + 1) * rl = hh * rl + rl := by ring
    have hmul2 : (hh + 1) * (1 + rl) = (1 + rl) + hh * (1 + rl) := by ring
    simp only [png_raw_rows]
    rw [List.length_append]
    rw [ih (data.drop rl) (by rw [List.length_drop]; omega)]
    simp only [List.length_cons, List.length_take]
    omega

/-- Reassembling the unfiltered (all filter-0) row stream returns the pixel buffer. -/
theorem png_assemble_raw_rows (w c : Nat) (h : Nat) : ∀ (data prev : List Nat),
    data.length = h * (w * c) →
    png_assemble_go (png_raw_rows data h (w * c)) h w c prev = data := by
  induction h with
  | zero =>
    intro data prev hlen
    have hnil : data = [] := List.eq_nil_of_length_eq_zero (by omega)
    subst hnil; rfl
  | succ hh ih =>
    intro data prev hlen
    have hmul : (hh + 1) * (w * c) = hh * (w * c) + w * c := by ring
    have hrl : w * c ≤ data.length := by omega
    simp only [png_raw_rows, png_assemble_go]
    have hraw0 : ((0 :: data.take (w * c))
        ++ png_raw_rows (data.drop (w * c)) hh (w * c)).getD 0 0 = 0 := rfl
    have hdrop1 : ((0 :: data.take (w * c))
        ++ png_raw_rows (data.drop (w * c)) hh (w * c)).drop 1
        = data.take (w * c) ++ png_raw_rows (data.drop (w * c)) hh (w * c) := rfl
    have hrow : (data.take (w * c) ++ png_raw_rows (data.drop (w * c)) hh (w * c)).take (w * c)
        = data.take (w * c) :=
      List.take_left' (by rw [List.length_take]; omega)
    have hdropr : ((0 :: data.take (w * c))
        ++ png_raw_rows (data.drop (w * c)) hh (w * c)).drop (1 + w * c)
        = png_raw_rows (data.drop (w * c)) hh (w * c) :=
      List.drop_left' (by simp only [List.length_cons, List.length_take]; omega)
    rw [hraw0, hdrop1, hrow, hdropr]
    have hunf : png_unfilter_row (data.take (w * c)) prev 0 w c = data.take (w * c) := rfl
    rw [hunf]
    rw [ih (data.drop (w * c)) (data.take (w * c)) (by rw [List.length_drop]; omega)]
    exact List.take_append_drop _ _

/-- Length of a written chunk: 12 bytes of framing plus the payload. -/
theorem png_write_chunk_length (T D : List Nat) (hT : T.length = 4) :
    (png_write_chunk T D).length = 12 + D.length := by
  simp [png_write_chunk, png_be32_bytes, List.length_append, hT]
  omega

/-- The chunk loop on a written IHDR chunk records width, height and color type
and moves to the rest of the stream. -/
theorem png_parse_go_IHDR (P tail : List Nat) (st : png_parse_state) (f : Nat)
    (h13 : 13 ≤ P.length) (hP : P.length < 2 ^ 32) :
    png_parse_go (png_write_chunk png_type_IHDR P ++ tail) st (f + 1)
      = png_parse_go tail
          { st with width := png_read_be32_mem P,
                    height := png_read_be32_mem (P.drop 4),
                    colorType := P.getD 9 0 } f := by
  have hshape : png_write_chunk png_type_IHDR P ++ tail
      = png_be32_bytes P.length
        ++ (png_type_IHDR
          ++ (P ++ (png_be32_bytes (png_crc (png_type_IHDR ++ P)) ++ tail))) := by
    simp [png_write_chunk, List.append_assoc]
  have hrlen : (png_write_chunk png_type_IHDR P ++ tail).length
      = 12 + P.length + tail.length := by
    rw [List.length_append, png_write_chunk_length _ _ (by rfl)]
    try omega
  have hclen : png_read_be32_mem (png_write_chunk png_type_IHDR P ++ tail) = P.length := by
    rw [hshape]
    exact png_read_be32_mem_bytes _ _ hP
  have hctype : ((png_write_chunk png_type_IHDR P ++ tail).drop 4).take 4 = png_type_IHDR := by
    rw [hshape, List.drop_left' (show (png_be32_bytes P.length).length = 4 from rfl)]
    exact List.take_left' rfl
  have hbody : (png_write_chunk png_type_IHDR P ++ tail).drop 8
      = P ++ (png_be32_bytes (png_crc (png_type_IHDR ++ P)) ++ tail) := by
    rw [hshape, show (8 : Nat) = 4 + 4 from rfl, ← List.drop_drop,
      List.drop_left' (show (png_be32_bytes P.length).length = 4 from rfl),
      List.drop_left' (show (png_type_IHDR : List Nat).length = 4 from rfl)]
  simp only [png_parse_go]
  rw [hrlen]
  rw [if_neg (show ¬ (12 + P.length + tail.length < 8) from by omega)]
  rw [hclen, hctype, hbody]
  have hblen : (P ++ (png_be32_bytes (png_crc (png_type_IHDR ++ P)) ++ tail)).length
      = P.length + (4 + tail.length) := by
    simp [List.length_append, png_be32_bytes]
    try omega
  rw [hblen]
  rw [if_neg (show ¬ (P.length + (4 + tail.length) < P.length + 4) from by omega)]
  rw [if_pos rfl]
  rw [if_neg (show ¬ (P.length < 13) from by omega)]
  rw [png_read_be32_mem_append P _ (by omega)]
  have hnext : (P ++ (png_be32_bytes (png_crc (png_type_IHDR ++ P)) ++ tail)).drop
      (P.length + 4) = tail := by
    rw [← List.append_assoc]
    exact List.drop_left' (by simp [List.length_append, png_be32_bytes])
  rw [hnext]
  have hh4 : (P ++ (png_be32_bytes (png_crc (png_type_IHDR ++ P)) ++ tail)).drop 4
      = P.drop 4 ++ (png_be32_bytes (png_crc (png_type_IHDR ++ P)) ++ tail) :=
    List.drop_append_of_le_length (by omega)
  rw [hh4]
  rw [png_read_be32_mem_append (P.drop 4) _ (by rw [List.length_drop]; omega)]
  rw [List.getD_append _ _ _ _ (by omega)]

/-- The chunk loop on a written IDAT chunk appends the payload to the IDAT
accumulator and moves on. -/
theorem png_parse_go_IDAT (Z tail : List Nat) (st : png_parse_state) (f : Nat)
    (hZ : Z.length < 2 ^ 32) :
    png_parse_go (png_write_chunk png_type_IDAT Z ++ tail) st (f + 1)
      = png_parse_go tail { st with idat := some (st.idat.getD [] ++ Z) } f := by
  have hshape : png_write_chunk png_type_IDAT Z ++ tail
      = png_be32_bytes Z.length
        ++ (png_type_IDAT
          ++ (Z ++ (png_be32_bytes (png_crc (png_type_IDAT ++ Z)) ++ tail))) := by
    simp [png_write_chunk, List.append_assoc]
  have hrlen : (png_write_chunk png_type_IDAT Z ++ tail).length
      = 12 + Z.length + tail.length := by
    rw [List.length_append, png_write_chunk_length _ _ (by rfl)]
    try omega
  have hclen : png_read_be32_mem (png_write_chunk png_type_IDAT Z ++ tail) = Z.length := by
    rw [hshape]
    exact png_read_be32_mem_bytes _ _ hZ
  have hctype : ((png_write_chunk png_type_IDAT Z ++ tail).drop 4).take 4 = png_type_IDAT := by
    rw [hshape, List.drop_left' (show (png_be32_bytes Z.length).length = 4 from rfl)]
    exact List.take_left' rfl
  have hbody : (png_write_chunk png_type_IDAT Z ++ tail).drop 8
      = Z ++ (png_be32_bytes (png_crc (png_type_IDAT ++ Z)) ++ tail) := by
    rw [hshape, show (8 : Nat) = 4 + 4 from rfl, ← List.drop_drop,
      List.drop_left' (show (png_be32_bytes Z.length).length = 4 from rfl),
      List.drop_left' (show (png_type_IDAT : List Nat).length = 4 from rfl)]
  simp only [png_parse_go]
  rw [hrlen]
  rw [if_neg (show ¬ (12 + Z.length + tail.length < 8) from by omega)]
  rw [hclen, hctype, hbody]
  have hblen : (Z ++ (png_be32_bytes (png_crc (png_type_IDAT ++ Z)) ++ tail)).length
      = Z.length + (4 + tail.length) := by
    simp [List.length_append, png_be32_bytes]
    try omega
  rw [hblen]
  rw [if_neg (show ¬ (Z.length + (4 + tail.length) < Z.length + 4) from by omega)]
  rw [if_neg (show ¬ (png_type_IDAT = png_type_IHDR) from by decide)]
  rw [if_pos rfl]
  rw [List.take_left' rfl]
  have hnext : (Z ++ (png_be32_bytes (png_crc (png_type_IDAT ++ Z)) ++ tail)).drop
      (Z.length + 4) = tail := by
    rw [← List.append_assoc]
    exact List.drop_left' (by simp [List.length_append, png_be32_bytes])
  rw [hnext]

/-- The chunk loop stops at a written IEND chunk. -/
theorem png_parse_go_IEND (tail : List Nat) (st : png_parse_state) (f : Nat) :
    png_parse_go (png_write_chunk png_type_IEND [] ++ tail) st (f + 1) = st := by
  have hshape : png_write_chunk png_type_IEND [] ++ tail
      = png_be32_bytes ([] : List Nat).length
        ++ (png_type_IEND
          ++ (([] : List Nat)
            ++ (png_be32_bytes (png_crc (png_type_IEND ++ [])) ++ tail))) := by
    simp [png_write_chunk, List.append_assoc]
  have hrlen : (png_write_chunk png_type_IEND [] ++ tail).length
      = 12 + tail.length := by
    rw [List.length_append, png_write_chunk_length _ _ (by rfl)]
    try simp
  have hclen : png_read_be32_mem (png_write_chunk png_type_IEND [] ++ tail)
      = ([] : List Nat).length := by
    rw [hshape]
    exact png_read_be32_mem_bytes _ _ (by norm_num)
  have hctype : ((png_write_chunk png_type_IEND [] ++ tail).drop 4).take 4 = png_type_IEND := by
    rw [hshape, List.drop_left' (show (png_be32_bytes ([] : List Nat).length).length = 4
      from rfl)]
    exact List.take_left' rfl
  have hbody : (png_write_chunk png_type_IEND [] ++ tail).drop 8
      = ([] : List Nat) ++ (png_be32_bytes (png_crc (png_type_IEND ++ [])) ++ tail) := by
    rw [hshape, show (8 : Nat) = 4 + 4 from rfl, ← List.drop_drop,
      List.drop_left' (show (png_be32_bytes ([] : List Nat).length).length = 4 from rfl),
      List.drop_left' (show (png_type_IEND : List Nat).length = 4 from rfl)]
  simp only [png_parse_go]
  rw [hrlen]
  rw [if_neg (show ¬ (12 + tail.length < 8) from by omega)]
  rw [hclen, hctype, hbody]
  have hblen : (([] : List Nat)
      ++ (png_be32_bytes (png_crc (png_type_IEND ++ [])) ++ tail)).length
      = ([] : List Nat).length + (4 + tail.length) := by
    simp [List.length_append, png_be32_bytes]
    try omega
  rw [hblen]
  rw [if_neg (show ¬ (([] : List Nat).length + (4 + tail.length)
      < ([] : List Nat).length + 4) from by simp)]
  rw [if_neg (show ¬ (png_type_IEND = png_type_IHDR) from by decide)]
  rw [if_neg (show ¬ (png_type_IEND = png_type_IDAT) from by decide)]
  rw [if_pos rfl]

set_option maxHeartbeats 2000000 in
/-- C1: round trip. For every image with width >= 1, height >= 1, channels in
{1,2,3,4}, arbitrary pixel bytes, a buffer of exactly width*height*channels
bytes, and a raw size height*(1+width*channels) that is representable in a
32-bit int (every image a C caller can build), png_save succeeds and writes
png_save_internal's bytes, and png_load_mem decodes those bytes back to an
image equal field-for-field and byte-for-byte to the original. -/
theorem c1_round_trip (w h c : Nat) (data path : List Nat)
    (hw : 1 ≤ w) (hh : 1 ≤ h) (hc : c = 1 ∨ c = 2 ∨ c = 3 ∨ c = 4)
    (hd : data.length = w * h * c) (hbound : h * (1 + w * c) < 2 ^ 31) :
    png_save (some ⟨w, h, c, data⟩) (some path)
      = (0, some (png_save_internal ⟨w, h, c, data⟩ none none)) ∧
    png_load_mem (png_save_internal ⟨w, h, c, data⟩ none none) = some ⟨w, h, c, data⟩ := by
  refine ⟨rfl, ?_⟩
  have e31 : (2 : Nat) ^ 31 = 2147483648 := by norm_num
  have e32 : (2 : Nat) ^ 32 = 4294967296 := by norm_num
  have hc1 : 1 ≤ c := by rcases hc with rfl | rfl | rfl | rfl <;> omega
  have hwc1 : 1 ≤ w * c := Nat.mul_pos hw hc1
  have hwlt : w < 2 ^ 31 := by
    have t1 : w ≤ w * c := Nat.le_mul_of_pos_right w hc1
    have t2 : 1 + w * c ≤ h * (1 + w * c) := Nat.le_mul_of_pos_left _ hh
    omega
  have hhlt : h < 2 ^ 31 := by
    have t2 : h * 2 ≤ h * (1 + w * c) := Nat.mul_le_mul_left h (by omega)
    omega
  have hdata' : data.length = h * (w * c) := by rw [hd]; ring
  have hraw : (png_raw_rows data h (w * c)).length = h * (1 + w * c) :=
    png_raw_rows_length (w * c) h data (by omega)
  have hraw1 : 1 ≤ (png_raw_rows data h (w * c)).length := by
    rw [hraw]
    have : 0 < h * (1 + w * c) := Nat.mul_pos hh (by omega)
    omega
  have hZlen : (png_deflate_store (png_raw_rows data h (w * c))).length
      = (png_deflate_blocks (png_raw_rows data h (w * c))).length + 6 := by
    simp [png_deflate_store, List.length_append]
  have hBle := png_deflate_blocks_go_len_le (png_raw_rows data h (w * c)).length
    (png_raw_rows data h (w * c))
  have hZ32 : (png_deflate_store (png_raw_rows data h (w * c))).length < 2 ^ 32 := by
    rw [hZlen]
    rw [hraw] at hBle
    show (png_deflate_blocks_go (png_raw_rows data h (w * c))
      (png_raw_rows data h (w * c)).length).length + 6 < 2 ^ 32
    rw [hraw]
    omega
  have hP13 : (png_ihdr_payload ⟨w, h, c, data⟩).length = 13 := rfl
  have hP4 : png_ihdr_payload ⟨w, h, c, data⟩
      = (png_be32_bytes w ++ png_be32_bytes h)
        ++ [8, if c = 4 then 6 else if c = 3 then 2 else if c = 2 then 4 else 0, 0, 0, 0] := rfl
  have hPw : png_read_be32_mem (png_ihdr_payload ⟨w, h, c, data⟩) = w := by
    rw [hP4, List.append_assoc]
    exact png_read_be32_mem_bytes w _ (by omega)
  have hPh : png_read_be32_mem ((png_ihdr_payload ⟨w, h, c, data⟩).drop 4) = h := by
    rw [hP4, List.append_assoc,
      List.drop_left' (show (png_be32_bytes w).length = 4 from rfl)]
    exact png_read_be32_mem_bytes h _ (by omega)
  have hPc : (png_ihdr_payload ⟨w, h, c, data⟩).getD 9 0
      = (if c = 4 then 6 else if c = 3 then 2 else if c = 2 then 4 else 0) := by
    rw [hP4]
    rw [List.getD_append_right _ _ _ _ (show (png_be32_bytes w ++ png_be32_bytes h).length ≤ 9
      from by simp [png_be32_bytes])]
    rw [show (9 : Nat) - (png_be32_bytes w ++ png_be32_bytes h).length = 1 from by
      simp [png_be32_bytes]]
    rfl
  have hchan : png_channels_of_color
      (if c = 4 then 6 else if c = 3 then 2 else if c = 2 then 4 else 0) = some c := by
    rcases hc with rfl | rfl | rfl | rfl <;> rfl
  have hE : png_save_internal ⟨w, h, c, data⟩ none none
      = png_signature
        ++ (png_write_chunk png_type_IHDR (png_ihdr_payload ⟨w, h, c, data⟩)
          ++ (png_write_chunk png_type_IDAT (png_deflate_store (png_raw_rows data h (w * c)))
            ++ png_write_chunk png_type_IEND [])) := by
    simp [png_save_internal, List.append_assoc]
  have hloop : ∀ fuel0 : Nat,
      png_parse_go
        (png_write_chunk png_type_IHDR (png_ihdr_payload ⟨w, h, c, data⟩)
          ++ (png_write_chunk png_type_IDAT (png_deflate_store (png_raw_rows data h (w * c)))
            ++ png_write_chunk png_type_IEND []))
        ⟨0, 0, 0, none⟩ (fuel0 + 3)
      = ⟨w, h, if c = 4 then 6 else if c = 3 then 2 else if c = 2 then 4 else 0,
          some (png_deflate_store (png_raw_rows data h (w * c)))⟩ := by
    intro fuel0
    rw [png_parse_go_IHDR _ _ _ _ (by omega) (by omega)]
    rw [hPw, hPh, hPc]
    rw [png_parse_go_IDAT _ _ _ _ hZ32]
    rw [show png_write_chunk png_type_IEND []
      = png_write_chunk png_type_IEND [] ++ [] from (List.append_nil _).symm]
    rw [png_parse_go_IEND]
    rfl
  have hparse : png_parse_chunks (png_save_internal ⟨w, h, c, data⟩ none none)
      = some (w, h, c, png_deflate_store (png_raw_rows data h (w * c))) := by
    rw [hE]
    simp only [png_parse_chunks]
    rw [if_neg (show ¬ ((png_signature ++ (png_write_chunk png_type_IHDR (png_ihdr_payload ⟨w, h, c, data⟩)
          ++ (png_write_chunk png_type_IDAT (png_deflate_store (png_raw_rows data h (w * c)))
            ++ png_write_chunk png_type_IEND []))).length < 8) from by
      rw [List.length_append]
      have hsg : (png_signature : List Nat).length = 8 := rfl
      omega)]
    rw [List.take_left' (show (png_signature : List Nat).length = 8 from rfl)]
    rw [if_neg (show ¬ (png_signature ≠ png_signature) from fun hne => hne rfl)]
    rw [List.drop_left' (show (png_signature : List Nat).length = 8 from rfl)]
    simp only [png_parse_loop]
    obtain ⟨fuel0, hfuel⟩ : ∃ g, (png_write_chunk png_type_IHDR (png_ihdr_payload ⟨w, h, c, data⟩)
          ++ (png_write_chunk png_type_IDAT (png_deflate_store (png_raw_rows data h (w * c)))
            ++ png_write_chunk png_type_IEND [])).length = g + 3 := by
      refine ⟨(png_write_chunk png_type_IHDR (png_ihdr_payload ⟨w, h, c, data⟩)
          ++ (png_write_chunk png_type_IDAT (png_deflate_store (png_raw_rows data h (w * c)))
            ++ png_write_chunk png_type_IEND [])).length - 3, ?_⟩
      rw [List.length_append, png_write_chunk_length _ _ (by rfl)]
      omega
    rw [hfuel, hloop fuel0]
    simp only []
    rw [if_neg (show ¬ (w = 0) from by omega)]
    rw [if_neg (show ¬ (h = 0) from by omega)]
    rw [hchan]
  have hinf : png_inflate_zlib (png_deflate_store (png_raw_rows data h (w * c)))
      (h * (1 + w * c)) = some (png_raw_rows data h (w * c)) := by
    have t := png_inflate_zlib_deflate_store (png_raw_rows data h (w * c)) hraw1
    rw [hraw] at t
    exact t
  have hasm : png_assemble_go (png_raw_rows data h (w * c)) h w c [] = data :=
    png_assemble_raw_rows w c h data [] (by omega)
  simp only [png_load_mem]
  rw [hparse]
  simp only []
  rw [hinf]
  simp only []
  rw [hasm]

/-- Witness for C1: the spec's 3x2 RGBA image with distinct bytes 0..23
round-trips through png_save and png_load_mem. -/
theorem c1_round_trip_witness :
    png_save (some ⟨3, 2, 4, List.range 24⟩) (some [])
      = (0, some (png_save_internal ⟨3, 2, 4, List.range 24⟩ none none)) ∧
    png_load_mem (png_save_internal ⟨3, 2, 4, List.range 24⟩ none none)
      = some ⟨3, 2, 4, List.range 24⟩ :=
  c1_round_trip 3 2 4 (List.range 24) [] (by decide) (by decide) (by decide)
    (by decide) (by norm_num)

/-! ### C2: CRC independence and overrun leniency -/

/-- The chunk loop returns the current state when the fuel is zero. -/
theorem png_parse_go_zero (rest : List Nat) (st : png_parse_state) :
    png_parse_go rest st 0 = st := by
  simp only [png_parse_go]
  split <;> rfl

/-- One step of the chunk loop over a well-formed chunk with an arbitrary CRC
field: the CRC bytes are skipped without being read, and the step only depends
on the type and payload. -/
theorem png_parse_go_chunk_step (L : Nat) (T D crc tail : List Nat) (st : png_parse_state)
    (f : Nat) (hL : L < 2 ^ 32) (hT : T.length = 4) (hD : D.length = L)
    (hcrc : crc.length = 4) :
    png_parse_go (png_be32_bytes L ++ (T ++ (D ++ (crc ++ tail)))) st (f + 1)
      = if T = png_type_IHDR then
          (if L < 13 then st
           else png_parse_go tail
              { st with width := png_read_be32_mem D,
                        height := png_read_be32_mem (D.drop 4),
                        colorType := D.getD 9 0 } f)
        else if T = png_type_IDAT then
          png_parse_go tail { st with idat := some (st.idat.getD [] ++ D) } f
        else if T = png_type_IEND then st
        else png_parse_go tail st f := by
  have hrlen : (png_be32_bytes L ++ (T ++ (D ++ (crc ++ tail)))).length
      = 12 + (L + tail.length) := by
    simp [List.length_append, png_be32_bytes, hT, hD, hcrc]
    try omega
  have hclen : png_read_be32_mem (png_be32_bytes L ++ (T ++ (D ++ (crc ++ tail)))) = L :=
    png_read_be32_mem_bytes L _ hL
  have hctype : ((png_be32_bytes L ++ (T ++ (D ++ (crc ++ tail)))).drop 4).take 4 = T := by
    rw [List.drop_left' (show (png_be32_bytes L).length = 4 from rfl)]
    exact List.take_left' hT
  have hbody : (png_be32_bytes L ++ (T ++ (D ++ (crc ++ tail)))).drop 8
      = D ++ (crc ++ tail) := by
    rw [show (8 : Nat) = 4 + 4 from rfl, ← List.drop_drop,
      List.drop_left' (show (png_be32_bytes L).length = 4 from rfl),
      List.drop_left' hT]
  simp only [png_parse_go]
  rw [hrlen]
  rw [if_neg (show ¬ (12 + (L + tail.length) < 8) from by omega)]
  rw [hclen, hctype, hbody]
  have hblen : (D ++ (crc ++ tail)).length = L + (4 + tail.length) := by
    simp [List.length_append, hD, hcrc]
    try omega
  rw [hblen]
  rw [if_neg (show ¬ (L + (4 + tail.length) < L + 4) from by omega)]
  have hnext : (D ++ (crc ++ tail)).drop (L + 4) = tail := by
    rw [← List.append_assoc]
    exact List.drop_left' (by simp [List.length_append, hD, hcrc]; try omega)
  rw [hnext]
  have htake : (D ++ (crc ++ tail)).take L = D := List.take_left' hD
  rw [htake]
  by_cases hTI : T = png_type_IHDR
  · rw [if_pos hTI, if_pos hTI]
    by_cases hL13 : L < 13
    · rw [if_pos hL13, if_pos hL13]
    · rw [if_neg hL13, if_neg hL13]
      rw [png_read_be32_mem_append D _ (by omega)]
      rw [List.drop_append_of_le_length (show 4 ≤ D.length from by omega)]
      rw [png_read_be32_mem_append (D.drop 4) _ (by rw [List.length_drop]; omega)]
      rw [List.getD_append _ _ _ _ (by omega)]
  · rw [if_neg hTI, if_neg hTI]

/-- CRC-equivalent streams have equal length. -/
theorem png_crc_equiv_length (r1 r2 : List Nat) (he : png_crc_equiv r1 r2) :
    r1.length = r2.length := by
  induction he with
  | refl r => rfl
  | chunk L T D c1 c2 t1 t2 hL hT hD hc1 hc2 ht ih =>
    simp [List.length_append, hc1, hc2, ih]

/-- The chunk loop never reads a CRC field: its result is unchanged under any
rewriting of the chunks' CRC bytes, for every starting state and fuel. -/
theorem png_parse_go_crc_irrelevant (fuel : Nat) :
    ∀ (r1 r2 : List Nat) (st : png_parse_state), png_crc_equiv r1 r2 →
      png_parse_go r1 st fuel = png_parse_go r2 st fuel := by
  induction fuel with
  | zero =>
    intro r1 r2 st _
    rw [png_parse_go_zero, png_parse_go_zero]
  | succ f ih =>
    intro r1 r2 st he
    cases he with
    | refl r => rfl
    | chunk L T D c1 c2 t1 t2 hL hT hD hc1 hc2 ht =>
      rw [png_parse_go_chunk_step L T D c1 t1 st f hL hT hD hc1,
        png_parse_go_chunk_step L T D c2 t2 st f hL hT hD hc2]
      by_cases hTI : T = png_type_IHDR
      · rw [if_pos hTI, if_pos hTI]
        by_cases hL13 : L < 13
        · rw [if_pos hL13, if_pos hL13]
        · rw [if_neg hL13, if_neg hL13]
          exact ih t1 t2 _ ht
      · rw [if_neg hTI, if_neg hTI]
        by_cases hTD : T = png_type_IDAT
        · rw [if_pos hTD, if_pos hTD]
          exact ih t1 t2 _ ht
        · rw [if_neg hTD, if_neg hTD]
          by_cases hTE : T = png_type_IEND
          · rw [if_pos hTE, if_pos hTE]
          · rw [if_neg hTE, if_neg hTE]
            exact ih t1 t2 _ ht

/-- Decoding never reads a CRC field: png_load_mem gives the same result on two
files that differ only in their chunks' CRC bytes. -/
theorem png_load_mem_crc_irrelevant (r1 r2 : List Nat) (he : png_crc_equiv r1 r2) :
    png_load_mem (png_signature ++ r1) = png_load_mem (png_signature ++ r2) := by
  have hlen : r1.length = r2.length := png_crc_equiv_length r1 r2 he
  have hpc : png_parse_chunks (png_signature ++ r1)
      = png_parse_chunks (png_signature ++ r2) := by
    simp only [png_parse_chunks]
    rw [show (png_signature ++ r1).length = 8 + r1.length from by
        rw [List.length_append]; rfl,
      show (png_signature ++ r2).length = 8 + r2.length from by
        rw [List.length_append]; rfl]
    rw [List.take_left' (show (png_signature : List Nat).length = 8 from rfl)]
    rw [List.take_left' (show (png_signature : List Nat).length = 8 from rfl)]
    rw [List.drop_left' (show (png_signature : List Nat).length = 8 from rfl)]
    rw [List.drop_left' (show (png_signature : List Nat).length = 8 from rfl)]
    simp only [png_parse_loop]
    rw [hlen]
    rw [png_parse_go_crc_irrelevant r2.length r1 r2 _ he]
  simp only [png_load_mem]
  rw [hpc]

/-- A declared chunk length that runs past the end of the input ends the chunk
loop, returning the state collected so far rather than failing. -/
theorem png_parse_go_overrun (rest : List Nat) (st : png_parse_state) (fuel : Nat)
    (h8 : ¬ rest.length < 8)
    (hover : (rest.drop 8).length < png_read_be32_mem rest + 4) :
    png_parse_go rest st fuel = st := by
  cases fuel with
  | zero => exact png_parse_go_zero rest st
  | succ f =>
    simp only [png_parse_go]
    rw [if_neg h8, if_pos hover]

/-- png_parse_chunks fails exactly when the signature is wrong or, after the
chunk loop ends for whatever reason, IHDR fields, a supported color type, or
IDAT data are still missing. -/
theorem png_parse_chunks_none_iff (data : List Nat) :
    png_parse_chunks data = none ↔
      data.length < 8 ∨ data.take 8 ≠ png_signature
      ∨ (png_parse_loop (data.drop 8) ⟨0, 0, 0, none⟩).width = 0
      ∨ (png_parse_loop (data.drop 8) ⟨0, 0, 0, none⟩).height = 0
      ∨ (png_parse_loop (data.drop 8) ⟨0, 0, 0, none⟩).idat = none
      ∨ png_channels_of_color
          (png_parse_loop (data.drop 8) ⟨0, 0, 0, none⟩).colorType = none := by
  constructor
  · intro h
    simp only [png_parse_chunks] at h
    repeat' split at h
    all_goals simp_all
  · intro h
    simp only [png_parse_chunks]
    repeat' split
    all_goals simp_all

/-- C2 amended: png_load_mem never reads or verifies chunk CRC fields — for any
two streams whose chunks agree except in their 4 CRC bytes (png_crc_equiv), the
chunk loop and the whole decoder give identical results — a chunk whose declared
length would run past the end of the input merely ends chunk iteration early
with the state collected so far, and parsing then fails exactly when the
signature, nonzero IHDR width and height, a supported color type, or IDAT data
are still missing. -/
theorem c2_crc_ignored_overrun_lenient :
    (∀ (r1 r2 : List Nat) (st : png_parse_state) (fuel : Nat), png_crc_equiv r1 r2 →
      png_parse_go r1 st fuel = png_parse_go r2 st fuel) ∧
    (∀ r1 r2 : List Nat, png_crc_equiv r1 r2 →
      png_load_mem (png_signature ++ r1) = png_load_mem (png_signature ++ r2)) ∧
    (∀ (rest : List Nat) (st : png_parse_state) (fuel : Nat),
      ¬ rest.length < 8 → (rest.drop 8).length < png_read_be32_mem rest + 4 →
      png_parse_go rest st fuel = st) ∧
    (∀ data : List Nat, png_parse_chunks data = none ↔
      data.length < 8 ∨ data.take 8 ≠ png_signature
      ∨ (png_parse_loop (data.drop 8) ⟨0, 0, 0, none⟩).width = 0
      ∨ (png_parse_loop (data.drop 8) ⟨0, 0, 0, none⟩).height = 0
      ∨ (png_parse_loop (data.drop 8) ⟨0, 0, 0, none⟩).idat = none
      ∨ png_channels_of_color
          (png_parse_loop (data.drop 8) ⟨0, 0, 0, none⟩).colorType = none) :=
  ⟨fun r1 r2 st fuel he => png_parse_go_crc_irrelevant fuel r1 r2 st he,
   fun r1 r2 he => png_load_mem_crc_irrelevant r1 r2 he,
   fun rest st fuel h8 hov => png_parse_go_overrun rest st fuel h8 hov,
   fun data => png_parse_chunks_none_iff data⟩

/-- Witness for C2: a one-chunk IDAT stream with CRC bytes 1,2,3,4 parses to the
same state as the identical stream with CRC bytes 5,6,7,8. -/
theorem c2_crc_ignored_overrun_lenient_witness :
    png_parse_go (png_be32_bytes 1 ++ ([73, 68, 65, 84] ++ ([7] ++ ([1, 2, 3, 4] ++ []))))
        ⟨0, 0, 0, none⟩ 13
      = png_parse_go (png_be32_bytes 1 ++ ([73, 68, 65, 84] ++ ([7] ++ ([5, 6, 7, 8] ++ []))))
        ⟨0, 0, 0, none⟩ 13 :=
  c2_crc_ignored_overrun_lenient.1
    (png_be32_bytes 1 ++ ([73, 68, 65, 84] ++ ([7] ++ ([1, 2, 3, 4] ++ []))))
    (png_be32_bytes 1 ++ ([73, 68, 65, 84] ++ ([7] ++ ([5, 6, 7, 8] ++ []))))
    ⟨0, 0, 0, none⟩ 13
    (png_crc_equiv.chunk 1 [73, 68, 65, 84] [7] [1, 2, 3, 4] [5, 6, 7, 8] [] []
      (by norm_num) rfl rfl rfl rfl (png_crc_equiv.refl []))

end Png
